import Mathlib

/-!
Verification of the pixel-art palette pipeline.

The development shallowly embeds the JavaScript sources:
* `paletteApply.js` — `quantizeImage`, `medianCut`, `getColorRanges`,
  `findNearestColor`, `applyPalette`, `determineBestK`;
* `pixelDetect.js` — `findPeaks`, `median`, `kCentroid`, `findDominantColor`,
  `averageColor`, and the dimension computation of `pixelDetect`.

Modelling conventions:
* JavaScript numbers holding pixel data are integers; they are embedded as `ℤ`.
  Intermediate centroid averages and median spacings are exact rationals (`ℚ`);
  the source computes them in IEEE doubles, whose additions and small-integer
  divisions are exact or correctly rounded, and every comparison the claims
  depend on is between values where the exact-rational and double orderings
  agree.
* `Math.sqrt` appears only inside comparisons of distances
  (`colorDistance`); since square root is strictly monotone, those
  comparisons are embedded as comparisons of the squared distances.
* `Array.prototype.sort` with comparator `(a, b) => a[c] - b[c]` is the
  stable ascending sort by channel `c`; it is embedded as insertion sort,
  which computes exactly the stable ascending order.
* A `Uint8ClampedArray` store clamps an integer to `[0, 255]`; this is
  `clampByte`.
* Fallible code paths (reading a property of `undefined`, as happens in
  `findNearestColor` on an empty palette) are embedded with `Option`:
  `none` is the thrown `TypeError`.
* The JavaScript `while` loop of `medianCut` adds one bucket per iteration
  and stops at `numColors` buckets, so running it with fuel `numColors`
  is exact.
* `NaN` and the infinities, which arise in `determineBestK` when a
  distortion of `0` is divided by, are embedded by the inductive `JsNum`.
-/

/-- Floor of a rational, written so that it evaluates by kernel
reduction; equal to `⌊q⌋` (`ratFloor_eq_floor`). -/
def ratFloor (q : ℚ) : ℤ := q.num / (q.den : ℤ)

/-- `Math.round` for JavaScript: round half toward positive infinity. -/
def jsRound (q : ℚ) : ℤ := ratFloor (q + 1/2)

/-- `Math.round(a / b)` for integers `a` and `b > 0`, computed without
leaving `ℤ`: `⌊a/b + 1/2⌋ = ⌊(2a + b) / (2b)⌋`, and `/` on `ℤ` rounds
toward negative infinity for positive divisors. Equal to
`jsRound (a / b)` (`jsRoundInt_eq`). -/
def jsRoundInt (a b : ℤ) : ℤ := (2 * a + b) / (2 * b)

/-- A `Uint8ClampedArray` store of an integer value clamps it to `[0, 255]`. -/
def clampByte (z : ℤ) : ℤ := max 0 (min 255 z)

/-- An `[r, g, b]` triple as used throughout the sources. -/
structure Color where
  r : ℤ
  g : ℤ
  b : ℤ
deriving DecidableEq, Repr

/-- Channel access `color[c]` for `c = 0, 1, 2`. -/
def chan (c : Color) : Fin 3 → ℤ
  | 0 => c.r
  | 1 => c.g
  | 2 => c.b

/-- A color whose three channels are bytes in `[0, 255]`. -/
def colorInRange (c : Color) : Prop :=
  0 ≤ c.r ∧ c.r ≤ 255 ∧ 0 ≤ c.g ∧ c.g ≤ 255 ∧ 0 ≤ c.b ∧ c.b ≤ 255

instance (c : Color) : Decidable (colorInRange c) := by
  unfold colorInRange; infer_instance

/-- The `ImageData` record: width, height and the flat RGBA byte array. -/
structure ImageData where
  width : ℕ
  height : ℕ
  data : List ℤ
deriving DecidableEq, Repr

/-- A valid image: the buffer has `4·W·H` entries, all bytes. -/
def validImage (img : ImageData) : Prop :=
  img.data.length = 4 * (img.width * img.height) ∧
    ∀ v ∈ img.data, 0 ≤ v ∧ v ≤ 255

instance (img : ImageData) : Decidable (validImage img) := by
  unfold validImage; infer_instance

/-- The pixel-extraction loop `for (i = 0; i < data.length; i += 4)`
pushing `[data[i], data[i+1], data[i+2]]`. -/
def toPixels : List ℤ → List Color
  | r :: g :: b :: _ :: rest => ⟨r, g, b⟩ :: toPixels rest
  | _ => []

/-- The RGB triple of pixel `i` of a flat buffer. -/
def pixelColorAt (d : List ℤ) (i : ℕ) : Color :=
  ⟨d.getD (4 * i) 0, d.getD (4 * i + 1) 0, d.getD (4 * i + 2) 0⟩

/-- The alpha byte of pixel `i` of a flat buffer. -/
def alphaAt (d : List ℤ) (i : ℕ) : ℤ :=
  d.getD (4 * i + 3) 0

/-- Sum of squared per-channel differences, as computed inline in
`findNearestColor` and `determineBestK`. -/
def distanceSquared (a b : Color) : ℤ :=
  (a.r - b.r) * (a.r - b.r) + (a.g - b.g) * (a.g - b.g) +
    (a.b - b.b) * (a.b - b.b)

/-- The comparison `dist < minDist` where `minDist` starts as `Infinity`
(`none`). -/
def ltInf (d : ℤ) : Option ℤ → Bool
  | none => true
  | some m => decide (d < m)

/-- `findNearestColor` from `paletteApply.js`: `nearest` starts as
`palette[0]` (which is `undefined`, i.e. `none`, on an empty palette) and
is replaced whenever a strictly smaller distance is found. -/
def findNearestColor (color : Color) (palette : List Color) : Option Color :=
  (palette.foldl
    (fun acc p =>
      if ltInf (distanceSquared color p) acc.2 then (some p, some (distanceSquared color p))
      else acc)
    ((palette.head?, none) : Option Color × Option ℤ)).1

/-- The body of the `applyPalette` loop: each group of four bytes is mapped
to the nearest palette color (clamped on store) with the alpha byte copied;
`none` is the `TypeError` thrown when `findNearestColor` returns
`undefined` (empty palette) and the code reads `nearest[0]`. -/
def applyPaletteData (palette : List Color) : List ℤ → Option (List ℤ)
  | r :: g :: b :: a :: rest =>
    match findNearestColor ⟨r, g, b⟩ palette, applyPaletteData palette rest with
    | some c, some out =>
      some (clampByte c.r :: clampByte c.g :: clampByte c.b :: a :: out)
    | _, _ => none
  | _ => some []

/-- `applyPalette` from `paletteApply.js`. -/
def applyPalette (img : ImageData) (palette : List Color) : Option ImageData :=
  (applyPaletteData palette img.data).map fun d =>
    { width := img.width, height := img.height, data := d }

/-- A bucket of colors, as used by `medianCut`. -/
abbrev Bucket := List Color

/-- `getColorRanges` from `paletteApply.js`: per-channel `max − min`, with
`min` starting at `255` and `max` at `0`, and `[0, 0, 0]` for an empty
bucket. -/
def getColorRanges (b : Bucket) : ℤ × ℤ × ℤ :=
  if b = [] then (0, 0, 0)
  else
    ((b.map Color.r).foldl max 0 - (b.map Color.r).foldl min 255,
     (b.map Color.g).foldl max 0 - (b.map Color.g).foldl min 255,
     (b.map Color.b).foldl max 0 - (b.map Color.b).foldl min 255)

/-- `Math.max(...ranges)` over the three channel ranges. -/
def maxRangeOf (b : Bucket) : ℤ :=
  max (max (getColorRanges b).1 (getColorRanges b).2.1) (getColorRanges b).2.2

/-- `ranges.indexOf(maxRange)`: the first channel attaining the maximal
range. -/
def largestChannelOf (b : Bucket) : Fin 3 :=
  if (getColorRanges b).1 = maxRangeOf b then 0
  else if (getColorRanges b).2.1 = maxRangeOf b then 1
  else 2

/-- The bucket-selection scan of `medianCut`: `largestRange` starts at
`−1` and a bucket wins only with a strictly larger maximal range, so the
first bucket attaining the maximum is kept, together with its index and
split channel. The source recovers the index afterwards with
`buckets.indexOf(largestBucket)` under reference equality; every array
in `buckets` is a distinct object (the initial pixel array and fresh
`slice` results), so that lookup returns exactly the scan position
recorded here. -/
def selectBucket (buckets : List Bucket) : Option (ℕ × Bucket × Fin 3) :=
  (buckets.enum.foldl
    (fun acc ib =>
      if maxRangeOf ib.2 > acc.1 then
        (maxRangeOf ib.2, some (ib.1, ib.2, largestChannelOf ib.2))
      else acc)
    ((-1 : ℤ), (none : Option (ℕ × Bucket × Fin 3)))).2

/-- Splitting a bucket: stable ascending sort by the split channel
(JavaScript `sort((a, b) => a[ch] - b[ch])`), then cut at
`Math.floor(length / 2)`. -/
def splitBucket (b : Bucket) (ch : Fin 3) : Bucket × Bucket :=
  let sorted := List.insertionSort (fun x y => chan x ch ≤ chan y ch) b
  (sorted.take (sorted.length / 2), sorted.drop (sorted.length / 2))

/-- One iteration of the `while` loop of `medianCut`: select the bucket
with the largest range; `none` when the loop `break`s (no bucket, or the
selected bucket has fewer than two members); otherwise replace the bucket
at its index by its two halves (`splice(idx, 1, bucket1, bucket2)`). -/
def medianCutStepAux (buckets : List Bucket) :
    Option (ℕ × Bucket × Fin 3) → Option (List Bucket)
  | none => none
  | some (i, bkt, ch) =>
    if bkt.length < 2 then none
    else
      some (buckets.take i ++
        (splitBucket bkt ch).1 :: (splitBucket bkt ch).2 :: buckets.drop (i + 1))

def medianCutStep (buckets : List Bucket) : Option (List Bucket) :=
  medianCutStepAux buckets (selectBucket buckets)

/-- The `while (buckets.length < numColors)` loop, run with fuel; every
iteration grows the bucket list by one, so fuel `numColors` is exact. -/
def medianCutLoop (numColors : ℕ) : ℕ → List Bucket → List Bucket
  | 0, bs => bs
  | fuel + 1, bs =>
    if bs.length < numColors then
      match medianCutStep bs with
      | none => bs
      | some bs2 => medianCutLoop numColors fuel bs2
    else bs

/-- The final bucket list computed by `medianCut`. -/
def medianCutBuckets (pixels : List Color) (numColors : ℕ) : List Bucket :=
  medianCutLoop numColors numColors [pixels]

/-- The representative color of a final bucket: `Math.round` of the
channel-wise mean. (The source would produce `NaN` on an empty bucket;
empty buckets never occur for a non-empty input, see `C10`.) -/
def bucketAverage (b : Bucket) : Color :=
  ⟨jsRoundInt (b.map Color.r).sum (b.length : ℤ),
   jsRoundInt (b.map Color.g).sum (b.length : ℤ),
   jsRoundInt (b.map Color.b).sum (b.length : ℤ)⟩

/-- `medianCut` from `paletteApply.js`. -/
def medianCut (pixels : List Color) (numColors : ℕ) : List Color :=
  (medianCutBuckets pixels numColors).map bucketAverage

/-- `quantizeImage` from `paletteApply.js`: build a palette from all
pixels via `medianCut`, then map every pixel to its nearest palette color,
preserving alpha (the mapping loop is identical to `applyPalette`). -/
def quantizeImage (img : ImageData) (numColors : ℕ) : Option ImageData :=
  (applyPaletteData (medianCut (toPixels img.data) numColors) img.data).map
    fun d => { width := img.width, height := img.height, data := d }

/-- A centroid during k-means: an exact-rational color. -/
structure QColor where
  r : ℚ
  g : ℚ
  b : ℚ
deriving DecidableEq, Repr

/-- Injection of an integer color as a centroid. -/
def qColor (c : Color) : QColor := ⟨c.r, c.g, c.b⟩

/-- Squared distance between a color and a centroid. The source compares
`colorDistance` values, i.e. square roots of these; square root is
strictly monotone, so the comparisons coincide. -/
def qDistSq (c : Color) (q : QColor) : ℚ :=
  ((c.r : ℚ) - q.r) * ((c.r : ℚ) - q.r) + ((c.g : ℚ) - q.g) * ((c.g : ℚ) - q.g) +
    ((c.b : ℚ) - q.b) * ((c.b : ℚ) - q.b)

/-- The comparison `dist < minDist` with `minDist` starting at `Infinity`. -/
def qLtInf (d : ℚ) : Option ℚ → Bool
  | none => true
  | some m => decide (d < m)

/-- The assignment scan of `findDominantColor`: nearest centroid index,
strict improvement only, so ties go to the lowest centroid index. -/
def assignIdx (c : Color) (cents : List QColor) : ℕ :=
  (cents.enum.foldl
    (fun acc ict =>
      if qLtInf (qDistSq c ict.2) acc.2 then (ict.1, some (qDistSq c ict.2))
      else acc)
    ((0 : ℕ), (none : Option ℚ))).1

/-- The cluster of colors assigned to centroid `i`; `List.filter` keeps
the push order of the source's sequential loop. -/
def clusterOf (colors : List Color) (cents : List QColor) (i : ℕ) : List Color :=
  colors.filter fun c => assignIdx c cents == i

/-- `averageColor` from `pixelDetect.js`: exact channel-wise mean,
not rounded. -/
def averageColor (colors : List Color) : QColor :=
  ⟨(((colors.map Color.r).sum : ℤ) : ℚ) / (colors.length : ℚ),
   (((colors.map Color.g).sum : ℤ) : ℚ) / (colors.length : ℚ),
   (((colors.map Color.b).sum : ℤ) : ℚ) / (colors.length : ℚ)⟩

/-- One k-means iteration: assign all colors, then recompute each
non-empty cluster's centroid; an empty cluster keeps its centroid. -/
def kmeansUpdate (colors : List Color) (cents : List QColor) : List QColor :=
  cents.enum.map fun ict =>
    if clusterOf colors cents ict.1 = [] then ict.2
    else averageColor (clusterOf colors cents ict.1)

/-- The fixed iteration loop of `findDominantColor`. -/
def kmeansIterate (colors : List Color) : ℕ → List QColor → List QColor
  | 0, cents => cents
  | n + 1, cents => kmeansIterate colors n (kmeansUpdate colors cents)

/-- The source's `maxIterations` constant. -/
def maxIterations : ℕ := 5

/-- The final scan of `findDominantColor`: the index of the cluster with
the most members, `maxSize` starting at `0` and strict improvement only,
so ties go to the lowest cluster index. -/
def largestClusterIdx (colors : List Color) (cents : List QColor) (k : ℕ) : ℕ :=
  ((List.range k).foldl
    (fun acc i =>
      if (clusterOf colors cents i).length > acc.2 then
        (i, (clusterOf colors cents i).length)
      else acc)
    ((0 : ℕ), (0 : ℕ))).1

/-- `Math.round` applied to each channel of a centroid. -/
def roundQColor (q : QColor) : Color := ⟨jsRound q.r, jsRound q.g, jsRound q.b⟩

/-- `findDominantColor` from `pixelDetect.js`. Seeding stops at the first
sample position `i · step` falling outside the color list (`takeWhile`
models the conjunctive loop condition `i < k && i*step < colors.length`).
The `k = 0` case, on which the source would throw, is never reached by
the sources (they pass `k = 2`). -/
def findDominantColor (colors : List Color) (k : ℕ) : Color :=
  if colors = [] then ⟨0, 0, 0⟩
  else if colors.length = 1 then colors.headD ⟨0, 0, 0⟩
  else
    let step := colors.length / k
    let cents0 := ((List.range k).takeWhile fun i => i * step < colors.length).map
      fun i => qColor (colors.getD (i * step) ⟨0, 0, 0⟩)
    let cents := kmeansIterate colors maxIterations cents0
    roundQColor (cents.getD (largestClusterIdx colors cents k) ⟨0, 0, 0⟩)

/-- The dominant-color procedure exactly as worded in spec §4.4 steps 1–3:
seed `k` centroids at positions `i · ⌊tileSize/k⌋` for `i ∈ [0, k)`
(duplicates tolerated), run exactly `maxIterations` assign/update rounds,
then one final assignment pass and return the rounded centroid of the
largest cluster. Stated from the spec for the refinement claim C8. -/
def specDominantColor (colors : List Color) (k : ℕ) : Color :=
  let step := colors.length / k
  let cents0 := (List.range k).map fun i => qColor (colors.getD (i * step) ⟨0, 0, 0⟩)
  let cents := kmeansIterate colors maxIterations cents0
  roundQColor (cents.getD (largestClusterIdx colors cents k) ⟨0, 0, 0⟩)

/-- The colors of the source tile `[x1, x2) × [y1, y2)`, row by row. -/
def tileColorList (img : ImageData) (x1 x2 y1 y2 : ℕ) : List Color :=
  (List.range' y1 (y2 - y1)).flatMap fun y =>
    (List.range' x1 (x2 - x1)).map fun x => pixelColorAt img.data (y * img.width + x)

/-- The four output bytes of one tile of `kCentroid`: an empty tile is
skipped, leaving the zero-initialised `[0, 0, 0, 0]`; otherwise the
dominant color with alpha forced to `255`. -/
def kCentroidTile (img : ImageData) (centroids : ℕ) (wFactor hFactor : ℚ)
    (tx ty : ℕ) : List ℤ :=
  let x1 := (ratFloor ((tx : ℚ) * wFactor)).toNat
  let y1 := (ratFloor ((ty : ℚ) * hFactor)).toNat
  let x2 := (min (ratFloor (((tx : ℚ) + 1) * wFactor)) (img.width : ℤ)).toNat
  let y2 := (min (ratFloor (((ty : ℚ) + 1) * hFactor)) (img.height : ℤ)).toNat
  let tile := tileColorList img x1 x2 y1 y2
  if tile = [] then [0, 0, 0, 0]
  else
    [clampByte (findDominantColor tile centroids).r,
     clampByte (findDominantColor tile centroids).g,
     clampByte (findDominantColor tile centroids).b, 255]

/-- `kCentroid` from `pixelDetect.js`. -/
def kCentroid (img : ImageData) (targetWidth targetHeight : ℕ)
    (centroids : ℕ) : ImageData :=
  { width := targetWidth, height := targetHeight,
    data := (List.range targetHeight).flatMap fun ty =>
      (List.range targetWidth).flatMap fun tx =>
        kCentroidTile img centroids ((img.width : ℚ) / (targetWidth : ℚ))
          ((img.height : ℚ) / (targetHeight : ℚ)) tx ty }

/-- `findPeaks` from `pixelDetect.js`: indices `1 ≤ i ≤ length − 2` whose
value strictly exceeds both neighbours and is at least `height`, accepted
greedily when at least `distance` after the previously accepted peak. -/
def findPeaks (data : List ℚ) (distance : ℕ) (height : ℚ) : List ℕ :=
  (List.range' 1 (data.length - 2)).foldl
    (fun peaks i =>
      if data.getD i 0 > data.getD (i - 1) 0 ∧ data.getD i 0 > data.getD (i + 1) 0 ∧
          data.getD i 0 ≥ height then
        if peaks = [] ∨ (distance : ℤ) ≤ (i : ℤ) - ((peaks.getLast?.getD 0 : ℕ) : ℤ) then
          peaks ++ [i]
        else peaks
      else peaks)
    []

/-- `median` from `pixelDetect.js`: `1` on the empty list, otherwise the
middle of the ascending sort, interpolating the two middle values when
the length is even. -/
def median (arr : List ℚ) : ℚ :=
  if arr = [] then 1
  else
    let sorted := List.insertionSort (fun a b => a ≤ b) arr
    if sorted.length % 2 = 0 then
      (sorted.getD (sorted.length / 2 - 1) 0 + sorted.getD (sorted.length / 2) 0) / 2
    else sorted.getD (sorted.length / 2) 0

/-- The gaps between successive peak indices. -/
def peakSpacing (peaks : List ℕ) : List ℚ :=
  (peaks.zip (peaks.drop 1)).map fun p => (((p.2 : ℤ) - (p.1 : ℤ) : ℤ) : ℚ)

/-- Median peak spacing of a difference signal, as computed by
`pixelDetect` for each axis. -/
def medianSpacingOf (signal : List ℚ) : ℚ :=
  median (peakSpacing (findPeaks signal 1 0))

/-- The target-dimension computation of `pixelDetect`
(`Math.max(1, Math.round(width / hMedian))` and the vertical analogue).
The two difference signals are parameters: the source builds them as
per-boundary sums of Euclidean color distances (`Math.sqrt` of an
integer), and the properties claimed of this stage hold for every signal
of the correct length, so the signal values are abstracted. -/
def pixelDetectDims (W H : ℕ) (hdiff vdiff : List ℚ) : ℕ × ℕ :=
  ((max 1 (jsRound ((W : ℚ) / medianSpacingOf hdiff))).toNat,
   (max 1 (jsRound ((H : ℚ) / medianSpacingOf vdiff))).toNat)

/-- The sampling loop of `determineBestK`
(`for (i = 0; i < data.length; i += 16)`): one color from every fourth
pixel. A tail of 3 to 15 remaining bytes still yields one sample, as in
the source; for a valid buffer (length a multiple of 4) every read is in
bounds, and shorter tails cannot occur. -/
def samplePixels : List ℤ → List Color
  | r :: g :: b :: _ :: _ :: _ :: _ :: _ :: _ :: _ :: _ :: _ :: _ :: _ :: _ :: _ :: rest =>
    ⟨r, g, b⟩ :: samplePixels rest
  | r :: g :: b :: _ => [⟨r, g, b⟩]
  | _ => []

/-- A JavaScript double as it occurs in the elbow computation of
`determineBestK`: a finite value, an infinity, or `NaN`. -/
inductive JsNum where
  | nan : JsNum
  | negInf : JsNum
  | posInf : JsNum
  | val : ℚ → JsNum
deriving DecidableEq, Repr

/-- JavaScript subtraction on `JsNum`. -/
def jsSub : JsNum → JsNum → JsNum
  | .nan, _ => .nan
  | _, .nan => .nan
  | .posInf, .posInf => .nan
  | .negInf, .negInf => .nan
  | .posInf, _ => .posInf
  | .negInf, _ => .negInf
  | .val _, .posInf => .negInf
  | .val _, .negInf => .posInf
  | .val a, .val b => .val (a - b)

/-- JavaScript strict `>` on `JsNum`; any comparison with `NaN` is
`false`. -/
def jsGt : JsNum → JsNum → Bool
  | .nan, _ => false
  | _, .nan => false
  | .posInf, .posInf => false
  | .posInf, _ => true
  | .negInf, _ => false
  | .val _, .posInf => false
  | .val _, .negInf => true
  | .val a, .val b => decide (a > b)

/-- The JavaScript division `num / den` as it appears in the
rate-of-change computation: both operands are integers (distortions and
their differences); dividing by `+0` yields `NaN` when the numerator is
`0` and a signed infinity otherwise. The denominator, a distortion, is
never negative. -/
def jsDivRate (num den : ℤ) : JsNum :=
  if den = 0 then
    if num = 0 then .nan
    else if num > 0 then .posInf
    else .negInf
  else .val (mkRat num den.toNat)

/-- The total squared distortion of a palette over the sampled pixels.
(`medianCut` never returns an empty palette, so the `getD 0` default for
a failed nearest-color lookup is dead code.) -/
def totalDistortion (pixels : List Color) (palette : List Color) : ℤ :=
  (pixels.map fun p => ((findNearestColor p palette).map (distanceSquared p)).getD 0).sum

/-- The distortion curve of `determineBestK`:
one entry per `k` from `1` to `min maxK 32`. -/
def bestKDistortions (pixels : List Color) (maxK : ℕ) : List ℤ :=
  (List.range' 1 (min maxK 32)).map fun k => totalDistortion pixels (medianCut pixels k)

/-- The rate-of-change list of `determineBestK`:
`rate[i] = (distortion[i-1] - distortion[i]) / distortion[i-1]`, with no
guard against a zero denominator. -/
def bestKRates (pixels : List Color) (maxK : ℕ) : List JsNum :=
  (List.range' 1 ((bestKDistortions pixels maxK).length - 1)).map fun i =>
    jsDivRate
      ((bestKDistortions pixels maxK).getD (i - 1) 0 -
        (bestKDistortions pixels maxK).getD i 0)
      ((bestKDistortions pixels maxK).getD (i - 1) 0)

/-- The elbow scan of `determineBestK`: the first index maximising
`rate[i-1] - rate[i]`, with `maxDrop` starting at `-Infinity` and strict
improvement only. -/
def elbowIndexOf (rates : List JsNum) : ℕ :=
  ((List.range' 1 (rates.length - 1)).foldl
    (fun acc i =>
      if jsGt (jsSub (rates.getD (i - 1) .nan) (rates.getD i .nan)) acc.2 then
        (i, jsSub (rates.getD (i - 1) .nan) (rates.getD i .nan))
      else acc)
    ((0 : ℕ), JsNum.negInf)).1

/-- `determineBestK` from `paletteApply.js`. -/
def determineBestK (img : ImageData) (maxK : ℕ) : ℕ :=
  let pixels := samplePixels img.data
  if pixels = [] then 2
  else
    let rates := bestKRates pixels maxK
    if rates = [] then 2
    else max 2 (min (elbowIndexOf rates + 2) maxK)

/-- Example image for the zero-distortion analysis of `determineBestK`:
eight pixels, two distinct colors among the sampled ones. -/
def zeroDistortionImage : ImageData :=
  ⟨8, 1, [0, 0, 0, 255, 0, 0, 0, 255, 0, 0, 0, 255, 0, 0, 0, 255,
          2, 2, 2, 255, 2, 2, 2, 255, 2, 2, 2, 255, 2, 2, 2, 255]⟩

/-- Example image used by several witnesses: two pixels with distinct
colors and distinct alpha bytes. -/
def imgTwoPixels : ImageData := ⟨2, 1, [0, 0, 0, 9, 3, 3, 3, 8]⟩

/-! ## Bridging lemmas -/

theorem ratFloor_eq_floor (q : ℚ) : ratFloor q = ⌊q⌋ := Rat.floor_def.symm

theorem jsRoundInt_eq (a b : ℤ) (hb : 0 < b) :
    jsRoundInt a b = jsRound ((a : ℚ) / (b : ℚ)) := by
  have htn : (((2 * b).toNat : ℕ) : ℤ) = 2 * b := Int.toNat_of_nonneg (by omega)
  have hbq : (b : ℚ) ≠ 0 := Int.cast_ne_zero.mpr (by omega)
  have hcast : (a : ℚ) / (b : ℚ) + 1 / 2 =
      ((2 * a + b : ℤ) : ℚ) / (((2 * b).toNat : ℕ) : ℚ) := by
    have h2b : (((2 * b).toNat : ℕ) : ℚ) = ((2 * b : ℤ) : ℚ) := by
      exact_mod_cast congrArg (fun z : ℤ => (z : ℚ)) htn
    rw [h2b]
    push_cast
    field_simp
    ring
  rw [jsRound, ratFloor_eq_floor, hcast, Rat.floor_intCast_div_natCast, htn,
    jsRoundInt]

theorem clampByte_of_range (z : ℤ) (h0 : 0 ≤ z) (h255 : z ≤ 255) :
    clampByte z = z := by
  rw [clampByte]; omega

/-! ## Claim C1 -/

/-- Claim C1, amended: the division-by-zero case in the rate-of-change
computation of `determineBestK` is not guarded; a zero distortion at
`i − 1` produces a `NaN` rate. `NaN` drops never win the elbow
comparison, so `determineBestK` is still total and always returns a
value clamped to `[2, max 2 maxK]`. -/
theorem determineBestK_total_range (img : ImageData) (maxK : ℕ) :
    2 ≤ determineBestK img maxK ∧ determineBestK img maxK ≤ max 2 maxK := by
  simp only [determineBestK]
  split_ifs <;> omega

/-- Claim C1, counterexample: on `zeroDistortionImage` with `maxK = 4`
the distortion reaches `0` at `k = 2`; the rates computed at the steps
whose previous distortion is `0` are `NaN`, not `0`, so the code does
not guard the division as the specification asserts. -/
theorem determineBestK_zero_distortion_not_guarded :
    validImage zeroDistortionImage ∧
    bestKDistortions (samplePixels zeroDistortionImage.data) 4 = [6, 0, 0, 0] ∧
    bestKRates (samplePixels zeroDistortionImage.data) 4 =
      [JsNum.val 1, JsNum.nan, JsNum.nan] ∧
    JsNum.nan ≠ JsNum.val 0 := by decide

/-! ## Claim C2 -/

/-- Claim C2: `applyPalette` invoked with an empty palette on an image
with at least one pixel fails (the nearest-color lookup yields
`undefined` and the pixel store throws); it never silently returns a
default color. -/
theorem applyPalette_rejects_empty (img : ImageData) (hv : validImage img)
    (hne : img.data ≠ []) : applyPalette img [] = none := by
  obtain ⟨w, h, d⟩ := img
  obtain ⟨hlen, -⟩ := hv
  simp only at hlen hne ⊢
  rcases d with _ | ⟨r, _ | ⟨g, _ | ⟨b, _ | ⟨a, rest⟩⟩⟩⟩
  · exact absurd rfl hne
  · simp at hlen; omega
  · simp at hlen; omega
  · simp at hlen; omega
  · simp [applyPalette, applyPaletteData, findNearestColor]

/-- Witness for C2 at a concrete one-pixel image. -/
theorem applyPalette_rejects_empty_witness :
    validImage ⟨1, 1, [10, 10, 10, 7]⟩ ∧
      (ImageData.mk 1 1 [10, 10, 10, 7]).data ≠ [] ∧
      applyPalette ⟨1, 1, [10, 10, 10, 7]⟩ [] = none :=
  ⟨by decide, by decide,
    applyPalette_rejects_empty ⟨1, 1, [10, 10, 10, 7]⟩ (by decide) (by decide)⟩

/-! ## Claim C10 -/

theorem splitBucket_lengths (b : Bucket) (ch : Fin 3) :
    (splitBucket b ch).1.length = b.length / 2 ∧
    (splitBucket b ch).2.length = b.length - b.length / 2 := by
  constructor <;>
    simp [splitBucket, List.length_insertionSort, List.length_take,
      List.length_drop] <;> omega

theorem medianCutLoop_all_nonempty (k : ℕ) :
    ∀ (fuel : ℕ) (bs : List Bucket), (∀ b ∈ bs, b ≠ []) →
      ∀ b ∈ medianCutLoop k fuel bs, b ≠ [] := by
  intro fuel
  induction fuel with
  | zero => intro bs hbs; simpa [medianCutLoop] using hbs
  | succ n ih =>
    intro bs hbs
    rw [medianCutLoop]
    split
    · rcases hstep : medianCutStep bs with - | bs2
      · exact hbs
      · refine ih bs2 ?_
        rw [medianCutStep] at hstep
        rcases hsel : selectBucket bs with - | ⟨i, bkt, ch⟩
        · rw [hsel] at hstep
          simp only [medianCutStepAux] at hstep
          exact Option.noConfusion hstep
        · rw [hsel] at hstep
          by_cases hlt : bkt.length < 2
          · simp only [medianCutStepAux, if_pos hlt] at hstep
            exact Option.noConfusion hstep
          · simp only [medianCutStepAux, if_neg hlt, Option.some.injEq] at hstep
            obtain ⟨h1, h2⟩ := splitBucket_lengths bkt ch
            intro b hb
            rw [← hstep] at hb
            rcases List.mem_append.mp hb with hb1 | hb2
            · exact hbs b (List.take_subset i bs hb1)
            · simp only [List.mem_cons] at hb2
              rcases hb2 with rfl | rfl | hb3
              · rw [← List.length_pos]; omega
              · rw [← List.length_pos]; omega
              · exact hbs b (List.drop_subset (i + 1) bs hb3)
    · exact hbs

/-- Claim C10: splitting a bucket with at least two members always
produces two non-empty halves, and for a non-empty input every bucket in
the final bucket list of `medianCut` is non-empty, so the per-bucket
average never divides by zero. -/
theorem medianCut_buckets_nonempty (pixels : List Color) (k : ℕ)
    (hne : pixels ≠ []) :
    (∀ (b : Bucket) (ch : Fin 3), 2 ≤ b.length →
      (splitBucket b ch).1 ≠ [] ∧ (splitBucket b ch).2 ≠ []) ∧
    ∀ b ∈ medianCutBuckets pixels k, b ≠ [] := by
  constructor
  · intro b ch hb
    obtain ⟨h1, h2⟩ := splitBucket_lengths b ch
    constructor <;> rw [← List.length_pos] <;> omega
  · exact medianCutLoop_all_nonempty k k [pixels] (by simpa using hne)

/-- Witness for C10 at a concrete pixel list. -/
theorem medianCut_buckets_nonempty_witness :
    ([⟨0, 0, 0⟩, ⟨9, 9, 9⟩] : List Color) ≠ [] ∧
      ((∀ (b : Bucket) (ch : Fin 3), 2 ≤ b.length →
          (splitBucket b ch).1 ≠ [] ∧ (splitBucket b ch).2 ≠ []) ∧
        ∀ b ∈ medianCutBuckets [⟨0, 0, 0⟩, ⟨9, 9, 9⟩] 2, b ≠ []) :=
  ⟨by decide, medianCut_buckets_nonempty [⟨0, 0, 0⟩, ⟨9, 9, 9⟩] 2 (by decide)⟩

/-! ## Claim C7 -/

theorem peakSpacing_short (peaks : List ℕ) (h : peaks.length < 2) :
    peakSpacing peaks = [] := by
  have hz : peaks.zip (peaks.drop 1) = [] := by
    rw [← List.length_eq_zero, List.length_zip, List.length_drop]; omega
  rw [peakSpacing, hz]; rfl

theorem medianSpacing_degenerate (signal : List ℚ)
    (h : (findPeaks signal 1 0).length < 2) : medianSpacingOf signal = 1 := by
  rw [medianSpacingOf, peakSpacing_short _ h, median]; simp

theorem findPeaks_nil (distance : ℕ) (height : ℚ) :
    findPeaks [] distance height = [] := rfl

theorem jsRound_one : jsRound 1 = 1 := by
  rw [jsRound, ratFloor_eq_floor]
  rw [show (1 : ℚ) + 1 / 2 = 3 / 2 by norm_num]
  rw [Int.floor_eq_iff] <;> norm_num

/-- Claim C7: the median-spacing computation yields `1` whenever fewer
than two peaks exist on an axis — in particular when a dimension is `1`,
which forces the difference signal to be empty — and the target
dimensions are `round(W / hFactor)` and `round(H / vFactor)`, each
floored to a minimum of `1`. -/
theorem pixelDetect_dims_spec (W H : ℕ) (hdiff vdiff : List ℚ)
    (hw : hdiff.length = W - 1) (hh : vdiff.length = H - 1) :
    ((findPeaks hdiff 1 0).length < 2 → medianSpacingOf hdiff = 1) ∧
    ((findPeaks vdiff 1 0).length < 2 → medianSpacingOf vdiff = 1) ∧
    (pixelDetectDims W H hdiff vdiff).1 =
      (max 1 (jsRound ((W : ℚ) / medianSpacingOf hdiff))).toNat ∧
    (pixelDetectDims W H hdiff vdiff).2 =
      (max 1 (jsRound ((H : ℚ) / medianSpacingOf vdiff))).toNat ∧
    (W = 1 → (pixelDetectDims W H hdiff vdiff).1 = 1) ∧
    (H = 1 → (pixelDetectDims W H hdiff vdiff).2 = 1) := by
  refine ⟨fun h => medianSpacing_degenerate _ h,
    fun h => medianSpacing_degenerate _ h, rfl, rfl, ?_, ?_⟩
  · intro hW; subst hW
    have hnil : hdiff = [] := by rw [← List.length_eq_zero, hw]
    subst hnil
    have hmed : medianSpacingOf [] = 1 :=
      medianSpacing_degenerate [] (by rw [findPeaks_nil]; simp)
    show (max 1 (jsRound ((1 : ℕ) / medianSpacingOf []))).toNat = 1
    rw [hmed]
    norm_num [jsRound_one]
  · intro hH; subst hH
    have hnil : vdiff = [] := by rw [← List.length_eq_zero, hh]
    subst hnil
    have hmed : medianSpacingOf [] = 1 :=
      medianSpacing_degenerate [] (by rw [findPeaks_nil]; simp)
    show (max 1 (jsRound ((1 : ℕ) / medianSpacingOf []))).toNat = 1
    rw [hmed]
    norm_num [jsRound_one]

/-- Witness for C7 at concrete degenerate signals. -/
theorem pixelDetect_dims_spec_witness :
    ([] : List ℚ).length = 1 - 1 ∧ [(5 : ℚ)].length = 2 - 1 ∧
      (((findPeaks [] 1 0).length < 2 → medianSpacingOf [] = 1) ∧
        ((findPeaks [(5 : ℚ)] 1 0).length < 2 → medianSpacingOf [(5 : ℚ)] = 1) ∧
        (pixelDetectDims 1 2 [] [(5 : ℚ)]).1 =
          (max 1 (jsRound ((1 : ℚ) / medianSpacingOf []))).toNat ∧
        (pixelDetectDims 1 2 [] [(5 : ℚ)]).2 =
          (max 1 (jsRound ((2 : ℚ) / medianSpacingOf [(5 : ℚ)]))).toNat ∧
        (1 = 1 → (pixelDetectDims 1 2 [] [(5 : ℚ)]).1 = 1) ∧
        (2 = 1 → (pixelDetectDims 1 2 [] [(5 : ℚ)]).2 = 1)) :=
  ⟨rfl, rfl, pixelDetect_dims_spec 1 2 [] [(5 : ℚ)] rfl rfl⟩

/-! ## The nearest-color scan -/

theorem nearFold_spec (c : Color) :
    ∀ (l : List Color) (b : Color),
      ∃ b2, (l.foldl
          (fun acc p =>
            if ltInf (distanceSquared c p) acc.2 then
              (some p, some (distanceSquared c p))
            else acc)
          (some b, some (distanceSquared c b))) =
        (some b2, some (distanceSquared c b2)) ∧
      ((b2 = b ∧ ∀ p ∈ l, distanceSquared c b ≤ distanceSquared c p) ∨
        (∃ pre post, l = pre ++ b2 :: post ∧
          distanceSquared c b2 < distanceSquared c b ∧
          (∀ p ∈ pre, distanceSquared c b2 < distanceSquared c p) ∧
          (∀ p ∈ post, distanceSquared c b2 ≤ distanceSquared c p))) := by
  intro l
  induction l with
  | nil => intro b; exact ⟨b, rfl, Or.inl ⟨rfl, by simp⟩⟩
  | cons p rest ih =>
    intro b
    rw [List.foldl_cons]
    by_cases hlt : distanceSquared c p < distanceSquared c b
    · rw [if_pos (by simpa [ltInf] using hlt)]
      obtain ⟨b2, heq, hcase⟩ := ih p
      refine ⟨b2, heq, Or.inr ?_⟩
      rcases hcase with ⟨rfl, hall⟩ | ⟨pre, post, hsplit, hblt, hpre, hpost⟩
      · exact ⟨[], rest, by simp, hlt, by simp, hall⟩
      · refine ⟨p :: pre, post, by simp [hsplit], lt_trans hblt hlt, ?_, hpost⟩
        intro x hx
        rcases List.mem_cons.mp hx with rfl | hx2
        · omega
        · exact hpre x hx2
    · rw [if_neg (by simpa [ltInf] using hlt)]
      obtain ⟨b2, heq, hcase⟩ := ih b
      refine ⟨b2, heq, ?_⟩
      rcases hcase with ⟨rfl, hall⟩ | ⟨pre, post, hsplit, hblt, hpre, hpost⟩
      · refine Or.inl ⟨rfl, ?_⟩
        intro x hx
        rcases List.mem_cons.mp hx with rfl | hx2
        · omega
        · exact hall x hx2
      · refine Or.inr ⟨p :: pre, post, by simp [hsplit], hblt, ?_, hpost⟩
        intro x hx
        rcases List.mem_cons.mp hx with rfl | hx2
        · omega
        · exact hpre x hx2

theorem findNearestColor_spec (c p0 : Color) (rest : List Color) :
    ∃ b, findNearestColor c (p0 :: rest) = some b ∧
      ∃ pre post, p0 :: rest = pre ++ b :: post ∧
        (∀ x ∈ p0 :: rest, distanceSquared c b ≤ distanceSquared c x) ∧
        ∀ x ∈ pre, distanceSquared c b < distanceSquared c x := by
  have h0 : findNearestColor c (p0 :: rest) =
      (rest.foldl
        (fun acc p =>
          if ltInf (distanceSquared c p) acc.2 then
            (some p, some (distanceSquared c p))
          else acc)
        (some p0, some (distanceSquared c p0))).1 := by
    rw [findNearestColor, List.foldl_cons]
    simp [ltInf]
  obtain ⟨b2, heq, hcase⟩ := nearFold_spec c rest p0
  rw [h0, heq]
  refine ⟨b2, rfl, ?_⟩
  rcases hcase with ⟨rfl, hall⟩ | ⟨pre, post, hsplit, hblt, hpre, hpost⟩
  · refine ⟨[], rest, by simp, ?_, by simp⟩
    intro x hx
    rcases List.mem_cons.mp hx with rfl | hx2
    · omega
    · exact hall x hx2
  · refine ⟨p0 :: pre, post, by simp [hsplit], ?_, ?_⟩
    · intro x hx
      rcases List.mem_cons.mp hx with rfl | hx2
      · omega
      · rw [hsplit] at hx2
        rcases List.mem_append.mp hx2 with hx3 | hx4
        · exact le_of_lt (hpre x hx3)
        · rcases List.mem_cons.mp hx4 with rfl | hx5
          · omega
          · exact hpost x hx5
    · intro x hx
      rcases List.mem_cons.mp hx with rfl | hx2
      · omega
      · exact hpre x hx2

theorem findNearestColor_mem (c : Color) (pal : List Color) (hne : pal ≠ []) :
    ∃ b, findNearestColor c pal = some b ∧ b ∈ pal := by
  rcases pal with - | ⟨p0, rest⟩
  · exact absurd rfl hne
  · obtain ⟨b, heq, pre, post, hsplit, -, -⟩ := findNearestColor_spec c p0 rest
    exact ⟨b, heq, by rw [hsplit]; simp⟩

theorem pixelColorAt_cons4 (x1 x2 x3 x4 : ℤ) (l : List ℤ) (i : ℕ) :
    pixelColorAt (x1 :: x2 :: x3 :: x4 :: l) (i + 1) = pixelColorAt l i := rfl

theorem alphaAt_cons4 (x1 x2 x3 x4 : ℤ) (l : List ℤ) (i : ℕ) :
    alphaAt (x1 :: x2 :: x3 :: x4 :: l) (i + 1) = alphaAt l i := rfl

theorem applyPaletteData_spec (pal : List Color) (hne : pal ≠ []) :
    ∀ d : List ℤ, d.length % 4 = 0 →
      ∃ out, applyPaletteData pal d = some out ∧ out.length = d.length ∧
        ∀ i, 4 * i + 3 < d.length →
          (∃ nb, findNearestColor (pixelColorAt d i) pal = some nb ∧
            out.getD (4 * i) 0 = clampByte nb.r ∧
            out.getD (4 * i + 1) 0 = clampByte nb.g ∧
            out.getD (4 * i + 2) 0 = clampByte nb.b) ∧
          out.getD (4 * i + 3) 0 = alphaAt d i
  | r :: g :: b :: a :: rest => by
    intro hmod
    have hmod2 : rest.length % 4 = 0 := by
      simp only [List.length_cons] at hmod; omega
    obtain ⟨out, hout, holen, hpix⟩ := applyPaletteData_spec pal hne rest hmod2
    obtain ⟨nb, hnb, hmem⟩ := findNearestColor_mem ⟨r, g, b⟩ pal hne
    refine ⟨clampByte nb.r :: clampByte nb.g :: clampByte nb.b :: a :: out, ?_, ?_, ?_⟩
    · rw [applyPaletteData, hnb, hout]
    · simp [holen]
    · intro i hi
      match i with
      | 0 => exact ⟨⟨nb, hnb, rfl, rfl, rfl⟩, rfl⟩
      | i' + 1 =>
        have hi2 : 4 * i' + 3 < rest.length := by
          simp only [List.length_cons] at hi; omega
        obtain ⟨⟨nb2, hnb2, h0, h1, h2⟩, h3⟩ := hpix i' hi2
        refine ⟨⟨nb2, ?_, h0, h1, h2⟩, h3⟩
        rw [pixelColorAt_cons4]
        exact hnb2
  | [] => fun _ => ⟨[], rfl, rfl, fun i hi => absurd hi (by simp)⟩
  | [x] => fun hmod => absurd hmod (by simp)
  | [x, y] => fun hmod => absurd hmod (by simp)
  | [x, y, z] => fun hmod => absurd hmod (by simp)

theorem medianCutLoop_ne_nil (k : ℕ) :
    ∀ (fuel : ℕ) (bs : List Bucket), bs ≠ [] → medianCutLoop k fuel bs ≠ [] := by
  intro fuel
  induction fuel with
  | zero => intro bs hbs; simpa [medianCutLoop] using hbs
  | succ n ih =>
    intro bs hbs
    rw [medianCutLoop]
    split
    · rcases hstep : medianCutStep bs with - | bs2
      · exact hbs
      · refine ih bs2 ?_
        rw [medianCutStep] at hstep
        rcases hsel : selectBucket bs with - | ⟨i, bkt, ch⟩
        · rw [hsel] at hstep
          simp only [medianCutStepAux] at hstep
          exact Option.noConfusion hstep
        · rw [hsel] at hstep
          by_cases hlt : bkt.length < 2
          · simp only [medianCutStepAux, if_pos hlt] at hstep
            exact Option.noConfusion hstep
          · simp only [medianCutStepAux, if_neg hlt, Option.some.injEq] at hstep
            rw [← hstep]
            simp
    · exact hbs

theorem medianCut_ne_nil (pixels : List Color) (k : ℕ) :
    medianCut pixels k ≠ [] := by
  rw [medianCut, medianCutBuckets]
  have := medianCutLoop_ne_nil k k [pixels] (by simp)
  simpa using this

/-! ## Claim C9 -/

/-- Claim C9: quantization and palette application copy the alpha byte of
every pixel unchanged; only the RGB channels may change. -/
theorem alpha_preserved (img : ImageData) (hv : validImage img) :
    (∀ (numColors : ℕ) (out : ImageData), quantizeImage img numColors = some out →
      ∀ i, i < img.width * img.height → alphaAt out.data i = alphaAt img.data i) ∧
    ∀ (pal : List Color) (out : ImageData), applyPalette img pal = some out →
      ∀ i, i < img.width * img.height → alphaAt out.data i = alphaAt img.data i := by
  obtain ⟨hlen, -⟩ := hv
  have hmod : img.data.length % 4 = 0 := by omega
  constructor
  · intro numColors out hq i hi
    rw [quantizeImage] at hq
    obtain ⟨o, ho, hofn⟩ := Option.map_eq_some'.mp hq
    obtain ⟨o2, ho2, -, hpix⟩ :=
      applyPaletteData_spec (medianCut (toPixels img.data) numColors)
        (medianCut_ne_nil _ _) img.data hmod
    rw [ho2] at ho
    obtain rfl := Option.some_inj.mp ho
    obtain ⟨-, halpha⟩ := hpix i (by omega)
    rw [← hofn]
    exact halpha
  · intro pal out hq i hi
    rcases pal with - | ⟨p0, rest⟩
    · exfalso
      rcases hd : img.data with - | ⟨r, - | ⟨g, - | ⟨b, - | ⟨a, d5⟩⟩⟩⟩ <;>
        rw [hd] at hlen <;> simp only [List.length_cons, List.length_nil] at hlen
      · omega
      · omega
      · omega
      · omega
      · rw [applyPalette, hd] at hq
        rw [show applyPaletteData [] (r :: g :: b :: a :: d5) = none from rfl] at hq
        exact Option.noConfusion hq
    · rw [applyPalette] at hq
      obtain ⟨o, ho, hofn⟩ := Option.map_eq_some'.mp hq
      obtain ⟨o2, ho2, -, hpix⟩ :=
        applyPaletteData_spec (p0 :: rest) (by simp) img.data hmod
      rw [ho2] at ho
      obtain rfl := Option.some_inj.mp ho
      obtain ⟨-, halpha⟩ := hpix i (by omega)
      rw [← hofn]
      exact halpha

/-- Witness for C9 at a concrete two-pixel image. -/
theorem alpha_preserved_witness :
    validImage imgTwoPixels ∧
      ((∀ (numColors : ℕ) (out : ImageData),
          quantizeImage imgTwoPixels numColors = some out →
          ∀ i, i < imgTwoPixels.width * imgTwoPixels.height →
            alphaAt out.data i = alphaAt imgTwoPixels.data i) ∧
        ∀ (pal : List Color) (out : ImageData),
          applyPalette imgTwoPixels pal = some out →
          ∀ i, i < imgTwoPixels.width * imgTwoPixels.height →
            alphaAt out.data i = alphaAt imgTwoPixels.data i) :=
  ⟨by decide, alpha_preserved imgTwoPixels (by decide)⟩

/-! ## Claim C4 -/

theorem medianCut_one (pixels : List Color) :
    medianCut pixels 1 = [bucketAverage pixels] := by
  rw [medianCut, medianCutBuckets, medianCutLoop]
  simp [medianCutLoop]

theorem findNearestColor_single (c x : Color) :
    findNearestColor c [x] = some x := by
  simp [findNearestColor, ltInf]

theorem list_sum_nonneg (l : List ℤ) (h : ∀ x ∈ l, 0 ≤ x) : 0 ≤ l.sum := by
  induction l with
  | nil => simp
  | cons a t ih =>
    rw [List.sum_cons]
    have ha := h a (by simp)
    have ht := ih fun x hx => h x (by simp [hx])
    omega

theorem list_sum_le (l : List ℤ) (n : ℤ) (h : ∀ x ∈ l, x ≤ n) :
    l.sum ≤ n * l.length := by
  induction l with
  | nil => simp
  | cons a t ih =>
    rw [List.sum_cons, List.length_cons]
    have ha := h a (by simp)
    have ht := ih fun x hx => h x (by simp [hx])
    push_cast
    have hexp : n * ((t.length : ℤ) + 1) = n * (t.length : ℤ) + n := by ring
    rw [hexp]
    linarith

theorem jsRoundInt_range (a n : ℤ) (hn : 0 < n) (h0 : 0 ≤ a)
    (h255 : a ≤ 255 * n) : 0 ≤ jsRoundInt a n ∧ jsRoundInt a n ≤ 255 := by
  rw [jsRoundInt]
  constructor
  · exact Int.ediv_nonneg (by omega) (by omega)
  · have hlt : (2 * a + n) / (2 * n) < 256 :=
      (Int.ediv_lt_iff_lt_mul (by omega)).mpr (by omega)
    omega

theorem bucketAverage_in_range (b : Bucket) (hne : b ≠ [])
    (hr : ∀ c ∈ b, colorInRange c) : colorInRange (bucketAverage b) := by
  have hlen : 0 < (b.length : ℤ) := by
    have := List.length_pos.mpr hne
    omega
  have hch : ∀ f : Color → ℤ, (∀ c ∈ b, 0 ≤ f c ∧ f c ≤ 255) →
      0 ≤ jsRoundInt (b.map f).sum (b.length : ℤ) ∧
        jsRoundInt (b.map f).sum (b.length : ℤ) ≤ 255 := by
    intro f hf
    have h0 : 0 ≤ (b.map f).sum :=
      list_sum_nonneg _ fun x hx => by
        obtain ⟨c, hc, rfl⟩ := List.mem_map.mp hx
        exact (hf c hc).1
    have h255 : (b.map f).sum ≤ 255 * (b.length : ℤ) := by
      have := list_sum_le (b.map f) 255 fun x hx => by
        obtain ⟨c, hc, rfl⟩ := List.mem_map.mp hx
        exact (hf c hc).2
      rw [List.length_map] at this
      exact_mod_cast this
    exact jsRoundInt_range _ _ hlen h0 h255
  have hrr := hch Color.r fun c hc => ⟨(hr c hc).1, (hr c hc).2.1⟩
  have hgg := hch Color.g fun c hc => ⟨(hr c hc).2.2.1, (hr c hc).2.2.2.1⟩
  have hbb := hch Color.b fun c hc => ⟨(hr c hc).2.2.2.2.1, (hr c hc).2.2.2.2.2⟩
  exact ⟨hrr.1, hrr.2, hgg.1, hgg.2, hbb.1, hbb.2⟩

theorem toPixels_in_range :
    ∀ d : List ℤ, (∀ v ∈ d, 0 ≤ v ∧ v ≤ 255) → ∀ c ∈ toPixels d, colorInRange c
  | r :: g :: b :: a :: rest => by
    intro hb c hc
    rw [toPixels] at hc
    rcases List.mem_cons.mp hc with rfl | hc2
    · refine ⟨(hb r (by simp)).1, (hb r (by simp)).2, (hb g (by simp)).1,
        (hb g (by simp)).2, (hb b (by simp)).1, (hb b (by simp)).2⟩
    · exact toPixels_in_range rest (fun v hv => hb v (by simp [hv])) c hc2
  | [] => by intro _ c hc; simp [toPixels] at hc
  | [x] => by intro _ c hc; simp [toPixels] at hc
  | [x, y] => by intro _ c hc; simp [toPixels] at hc
  | [x, y, z] => by intro _ c hc; simp [toPixels] at hc

theorem data_shape (d : List ℤ) (hmod : d.length % 4 = 0) (hne : d ≠ []) :
    ∃ r g b a rest, d = r :: g :: b :: a :: rest := by
  rcases d with - | ⟨r, - | ⟨g, - | ⟨b, - | ⟨a, rest⟩⟩⟩⟩
  · exact absurd rfl hne
  · simp at hmod
  · simp at hmod
  · simp at hmod
  · exact ⟨r, g, b, a, rest, rfl⟩

theorem clampColor_in_range (c : Color) (h : colorInRange c) :
    clampByte c.r = c.r ∧ clampByte c.g = c.g ∧ clampByte c.b = c.b :=
  ⟨clampByte_of_range _ h.1 h.2.1, clampByte_of_range _ h.2.2.1 h.2.2.2.1,
    clampByte_of_range _ h.2.2.2.2.1 h.2.2.2.2.2⟩

/-- Claim C4: quantizing a valid non-empty image to one color yields a
buffer in which every pixel's RGB triple is the rounded channel-wise
average of the whole input (the single entry of the one-bucket palette). -/
theorem quantize_one_collapse (img : ImageData) (hv : validImage img)
    (hne : img.data ≠ []) :
    ∃ out, quantizeImage img 1 = some out ∧
      ∀ i, i < img.width * img.height →
        pixelColorAt out.data i = bucketAverage (toPixels img.data) := by
  obtain ⟨hlen, hbytes⟩ := hv
  have hmod : img.data.length % 4 = 0 := by omega
  have hpal := medianCut_one (toPixels img.data)
  obtain ⟨out, hout, holen, hpix⟩ :=
    applyPaletteData_spec [bucketAverage (toPixels img.data)] (by simp)
      img.data hmod
  refine ⟨⟨img.width, img.height, out⟩, ?_, ?_⟩
  · rw [quantizeImage, hpal, hout]
    rfl
  · intro i hi
    have hi4 : 4 * i + 3 < img.data.length := by omega
    obtain ⟨⟨nb, hnb, h0, h1, h2⟩, -⟩ := hpix i hi4
    rw [findNearestColor_single] at hnb
    obtain rfl := Option.some_inj.mp hnb
    have hpx : toPixels img.data ≠ [] := by
      obtain ⟨r, g, b, a, rest, hd⟩ := data_shape img.data hmod hne
      rw [hd, toPixels]
      simp
    have havg := bucketAverage_in_range (toPixels img.data) hpx
      (toPixels_in_range img.data hbytes)
    obtain ⟨cr, cg, cb⟩ := clampColor_in_range _ havg
    rw [pixelColorAt]
    simp only []
    rw [h0, h1, h2, cr, cg, cb]

/-- Witness for C4 at a concrete two-pixel image. -/
theorem quantize_one_collapse_witness :
    validImage imgTwoPixels ∧ imgTwoPixels.data ≠ [] ∧
      ∃ out, quantizeImage imgTwoPixels 1 = some out ∧
        ∀ i, i < imgTwoPixels.width * imgTwoPixels.height →
          pixelColorAt out.data i = bucketAverage (toPixels imgTwoPixels.data) :=
  ⟨by decide, by decide,
    quantize_one_collapse imgTwoPixels (by decide) (by decide)⟩

/-! ## Claim C6 -/

/-- Claim C6: every output pixel of `applyPalette` is an exact member of
the palette, namely the entry minimising `distanceSquared` to the input
pixel with ties resolved by first occurrence: it splits the palette so
that every entry strictly before it has strictly larger distance and no
entry at all has smaller distance. -/
theorem applyPalette_nearest_member (img : ImageData) (palette : List Color)
    (hv : validImage img) (hne : palette ≠ [])
    (hpr : ∀ p ∈ palette, colorInRange p) :
    ∃ out, applyPalette img palette = some out ∧
      ∀ i, i < img.width * img.height →
        ∃ pre post, palette = pre ++ pixelColorAt out.data i :: post ∧
          (∀ p ∈ palette,
            distanceSquared (pixelColorAt img.data i) (pixelColorAt out.data i) ≤
              distanceSquared (pixelColorAt img.data i) p) ∧
          ∀ p ∈ pre,
            distanceSquared (pixelColorAt img.data i) (pixelColorAt out.data i) <
              distanceSquared (pixelColorAt img.data i) p := by
  obtain ⟨hlen, hbytes⟩ := hv
  have hmod : img.data.length % 4 = 0 := by omega
  obtain ⟨out, hout, holen, hpix⟩ :=
    applyPaletteData_spec palette hne img.data hmod
  refine ⟨⟨img.width, img.height, out⟩, by rw [applyPalette, hout]; rfl, ?_⟩
  intro i hi
  have hi4 : 4 * i + 3 < img.data.length := by omega
  obtain ⟨⟨nb, hnb, h0, h1, h2⟩, -⟩ := hpix i hi4
  rcases palette with - | ⟨p0, rest⟩
  · exact absurd rfl hne
  obtain ⟨b, hb, pre, post, hsplit, hall, hpre⟩ :=
    findNearestColor_spec (pixelColorAt img.data i) p0 rest
  rw [hb] at hnb
  obtain rfl := Option.some_inj.mp hnb
  have hmemb : b ∈ p0 :: rest := by rw [hsplit]; simp
  obtain ⟨cr, cg, cb⟩ := clampColor_in_range b (hpr b hmemb)
  have hpx : pixelColorAt (ImageData.mk img.width img.height out).data i = b := by
    show pixelColorAt out i = b
    rw [pixelColorAt, h0, h1, h2, cr, cg, cb]
  rw [hpx]
  exact ⟨pre, post, hsplit, hall, hpre⟩

/-- Witness for C6 at a concrete image and palette. -/
theorem applyPalette_nearest_member_witness :
    validImage imgTwoPixels ∧
      ([⟨0, 0, 0⟩, ⟨255, 255, 255⟩] : List Color) ≠ [] ∧
      (∀ p ∈ ([⟨0, 0, 0⟩, ⟨255, 255, 255⟩] : List Color), colorInRange p) ∧
      ∃ out, applyPalette imgTwoPixels [⟨0, 0, 0⟩, ⟨255, 255, 255⟩] = some out ∧
        ∀ i, i < imgTwoPixels.width * imgTwoPixels.height →
          ∃ pre post,
            ([⟨0, 0, 0⟩, ⟨255, 255, 255⟩] : List Color) =
              pre ++ pixelColorAt out.data i :: post ∧
            (∀ p ∈ ([⟨0, 0, 0⟩, ⟨255, 255, 255⟩] : List Color),
              distanceSquared (pixelColorAt imgTwoPixels.data i)
                  (pixelColorAt out.data i) ≤
                distanceSquared (pixelColorAt imgTwoPixels.data i) p) ∧
            ∀ p ∈ pre,
              distanceSquared (pixelColorAt imgTwoPixels.data i)
                  (pixelColorAt out.data i) <
                distanceSquared (pixelColorAt imgTwoPixels.data i) p :=
  ⟨by decide, by decide, by decide,
    applyPalette_nearest_member imgTwoPixels [⟨0, 0, 0⟩, ⟨255, 255, 255⟩]
      (by decide) (by decide) (by decide)⟩

/-! ## Claim C5 -/

theorem flatMap_const_length (c : ℕ) :
    ∀ (L : List ℕ) (f : ℕ → List ℤ), (∀ x ∈ L, (f x).length = c) →
      (L.flatMap f).length = c * L.length := by
  intro L
  induction L with
  | nil => intro f _; simp
  | cons x xs ih =>
    intro f hf
    rw [List.flatMap_cons, List.length_append, hf x (by simp),
      ih f fun y hy => hf y (by simp [hy]), List.length_cons]
    ring

theorem getD_flatMap_const (c : ℕ) :
    ∀ (L : List ℕ) (f : ℕ → List ℤ), (∀ x ∈ L, (f x).length = c) →
      ∀ t j, t < L.length → j < c →
        (L.flatMap f).getD (c * t + j) 0 = (f (L.getD t 0)).getD j 0 := by
  intro L
  induction L with
  | nil => intro f _ t j ht; simp at ht
  | cons x xs ih =>
    intro f hf t j ht hj
    rw [List.flatMap_cons]
    match t with
    | 0 =>
      have hjlen : j < (f x).length := by rw [hf x (by simp)]; exact hj
      rw [show c * 0 + j = j by ring, List.getD_append _ _ 0 j hjlen]
      rfl
    | t2 + 1 =>
      have hidx : c * (t2 + 1) + j = (f x).length + (c * t2 + j) := by
        rw [hf x (by simp)]; ring
      rw [hidx, List.getD_append_right _ _ 0 _ (by omega)]
      have hsub : (f x).length + (c * t2 + j) - (f x).length = c * t2 + j := by
        omega
      rw [hsub]
      have := ih (fun y => f y) (fun y hy => hf y (by simp [hy])) t2 j
        (by simpa using ht) hj
      rw [this]
      rfl

theorem getD_range_self (n m : ℕ) (h : n < m) : (List.range m).getD n 0 = n := by
  rw [List.getD_eq_getElem _ _ (by simpa using h)]
  simp

theorem kCentroidTile_length (img : ImageData) (k : ℕ) (wf hf : ℚ)
    (tx ty : ℕ) : (kCentroidTile img k wf hf tx ty).length = 4 := by
  rw [kCentroidTile]
  split <;> rfl

theorem getD_grid (W H : ℕ) (tile : ℕ → ℕ → List ℤ)
    (hlen : ∀ tx ty, (tile tx ty).length = 4)
    (tx ty j : ℕ) (htx : tx < W) (hty : ty < H) (hj : j < 4) :
    ((List.range H).flatMap fun ty2 =>
        (List.range W).flatMap fun tx2 => tile tx2 ty2).getD
      (4 * (ty * W + tx) + j) 0 = (tile tx ty).getD j 0 := by
  have hrow : ∀ y ∈ List.range H,
      ((List.range W).flatMap fun tx2 => tile tx2 y).length = 4 * W := by
    intro y _
    rw [flatMap_const_length 4 (List.range W) _ fun x _ => hlen x y]
    simp [Nat.mul_comm]
  have hidx : 4 * (ty * W + tx) + j = (4 * W) * ty + (4 * tx + j) := by ring
  rw [hidx,
    getD_flatMap_const (4 * W) (List.range H) _ hrow ty (4 * tx + j)
      (by simpa using hty) (by omega),
    getD_range_self ty H hty,
    getD_flatMap_const 4 (List.range W) _ (fun x _ => hlen x ty) tx j
      (by simpa using htx) hj,
    getD_range_self tx W htx]

theorem getD_in_range (d : List ℤ) (hb : ∀ v ∈ d, 0 ≤ v ∧ v ≤ 255) (n : ℕ)
    (h : n < d.length) : 0 ≤ d.getD n 0 ∧ d.getD n 0 ≤ 255 := by
  rw [List.getD_eq_getElem _ _ h]
  exact hb _ (List.getElem_mem h)

theorem pixelColorAt_in_range (d : List ℤ) (hb : ∀ v ∈ d, 0 ≤ v ∧ v ≤ 255)
    (i : ℕ) (h : 4 * i + 2 < d.length) : colorInRange (pixelColorAt d i) := by
  obtain ⟨a0, a1⟩ := getD_in_range d hb (4 * i) (by omega)
  obtain ⟨b0, b1⟩ := getD_in_range d hb (4 * i + 1) (by omega)
  obtain ⟨c0, c1⟩ := getD_in_range d hb (4 * i + 2) h
  exact ⟨a0, a1, b0, b1, c0, c1⟩

theorem ratFloor_natCast (n : ℕ) : ratFloor ((n : ℚ)) = (n : ℤ) := by
  rw [ratFloor_eq_floor, Int.floor_natCast]

theorem kCentroidTile_self (img : ImageData) (k : ℕ)
    (hb : ∀ v ∈ img.data, 0 ≤ v ∧ v ≤ 255)
    (hlen : img.data.length = 4 * (img.width * img.height))
    (tx ty : ℕ) (htx : tx < img.width) (hty : ty < img.height) :
    kCentroidTile img k ((img.width : ℚ) / (img.width : ℚ))
        ((img.height : ℚ) / (img.height : ℚ)) tx ty =
      [(pixelColorAt img.data (ty * img.width + tx)).r,
       (pixelColorAt img.data (ty * img.width + tx)).g,
       (pixelColorAt img.data (ty * img.width + tx)).b, 255] := by
  have hW : ((img.width : ℚ)) ≠ 0 := by
    simp only [ne_eq, Nat.cast_eq_zero]
    omega
  have hH : ((img.height : ℚ)) ≠ 0 := by
    simp only [ne_eq, Nat.cast_eq_zero]
    omega
  have hwf : (img.width : ℚ) / (img.width : ℚ) = 1 := div_self hW
  have hhf : (img.height : ℚ) / (img.height : ℚ) = 1 := div_self hH
  rw [kCentroidTile, hwf, hhf]
  have e1 : ∀ t : ℕ, (ratFloor ((t : ℚ) * 1)).toNat = t := by
    intro t
    rw [mul_one, ratFloor_natCast]
    rfl
  have e2 : ∀ t m : ℕ, t < m →
      (min (ratFloor (((t : ℚ) + 1) * 1)) (m : ℤ)).toNat = t + 1 := by
    intro t m htm
    rw [mul_one, show ((t : ℚ) + 1) = ((t + 1 : ℕ) : ℚ) by push_cast; ring,
      ratFloor_natCast]
    have : min ((t + 1 : ℕ) : ℤ) (m : ℤ) = ((t + 1 : ℕ) : ℤ) := by
      rw [min_eq_left]; omega
    rw [this]
    rfl
  rw [e1 tx, e1 ty, e2 tx img.width htx, e2 ty img.height hty]
  have htile : tileColorList img tx (tx + 1) ty (ty + 1) =
      [pixelColorAt img.data (ty * img.width + tx)] := by
    rw [tileColorList, show tx + 1 - tx = 1 by omega, show ty + 1 - ty = 1 by omega,
      List.range'_one, List.range'_one]
    simp
  rw [htile]
  have hne : ([pixelColorAt img.data (ty * img.width + tx)] : List Color) ≠ [] := by
    simp
  rw [if_neg hne]
  have hdom : findDominantColor [pixelColorAt img.data (ty * img.width + tx)] k =
      pixelColorAt img.data (ty * img.width + tx) := by
    rw [findDominantColor]
    simp
  rw [hdom]
  have hpr : colorInRange (pixelColorAt img.data (ty * img.width + tx)) := by
    refine pixelColorAt_in_range img.data hb _ ?_
    have : ty * img.width + tx < img.width * img.height := by
      have h1 : ty * img.width + tx < (ty + 1) * img.width := by
        have : (ty + 1) * img.width = ty * img.width + img.width := by ring
        omega
      have h2 : (ty + 1) * img.width ≤ img.height * img.width :=
        Nat.mul_le_mul_right _ (by omega)
      have h3 : img.height * img.width = img.width * img.height := Nat.mul_comm _ _
      omega
    omega
  obtain ⟨cr, cg, cb⟩ := clampColor_in_range _ hpr
  rw [cr, cg, cb]

/-- Claim C5: downscaling with target dimensions equal to the source
dimensions makes every tile a single source pixel, and clustering a
single color returns it unchanged, so every output pixel's RGB equals the
corresponding source pixel's RGB, for every cluster count `k`. -/
theorem kCentroid_identity (img : ImageData) (k : ℕ) (hv : validImage img) :
    ∀ i, i < img.width * img.height →
      pixelColorAt (kCentroid img img.width img.height k).data i =
        pixelColorAt img.data i := by
  obtain ⟨hlen, hbytes⟩ := hv
  intro i hi
  have hW : 0 < img.width := by
    rcases Nat.eq_zero_or_pos img.width with h | h
    · rw [h] at hi; simp at hi
    · exact h
  have htx : i % img.width < img.width := Nat.mod_lt _ hW
  have hty : i / img.width < img.height := by
    rw [Nat.div_lt_iff_lt_mul hW]
    calc i < img.width * img.height := hi
    _ = img.height * img.width := Nat.mul_comm _ _
  have hieq : i = (i / img.width) * img.width + i % img.width := by
    rw [Nat.mul_comm]
    exact (Nat.div_add_mod i img.width).symm
  have htile := kCentroidTile_self img k hbytes hlen (i % img.width)
    (i / img.width) htx hty
  have hgrid := fun (j : ℕ) (hj : j < 4) =>
    getD_grid img.width img.height
      (fun tx2 ty2 => kCentroidTile img k ((img.width : ℚ) / (img.width : ℚ))
        ((img.height : ℚ) / (img.height : ℚ)) tx2 ty2)
      (fun tx2 ty2 => kCentroidTile_length img k _ _ tx2 ty2)
      (i % img.width) (i / img.width) j htx hty hj
  have h0 : ((List.range img.height).flatMap fun ty2 =>
      (List.range img.width).flatMap fun tx2 =>
        kCentroidTile img k ((img.width : ℚ) / (img.width : ℚ))
          ((img.height : ℚ) / (img.height : ℚ)) tx2 ty2).getD (4 * i) 0 =
      img.data.getD (4 * i) 0 := by
    rw [show 4 * i = 4 * ((i / img.width) * img.width + i % img.width) + 0 by
        omega, hgrid 0 (by omega), htile]
    rfl
  have h1 : ((List.range img.height).flatMap fun ty2 =>
      (List.range img.width).flatMap fun tx2 =>
        kCentroidTile img k ((img.width : ℚ) / (img.width : ℚ))
          ((img.height : ℚ) / (img.height : ℚ)) tx2 ty2).getD (4 * i + 1) 0 =
      img.data.getD (4 * i + 1) 0 := by
    rw [show 4 * i + 1 = 4 * ((i / img.width) * img.width + i % img.width) + 1 by
        omega, hgrid 1 (by omega), htile]
    rfl
  have h2 : ((List.range img.height).flatMap fun ty2 =>
      (List.range img.width).flatMap fun tx2 =>
        kCentroidTile img k ((img.width : ℚ) / (img.width : ℚ))
          ((img.height : ℚ) / (img.height : ℚ)) tx2 ty2).getD (4 * i + 2) 0 =
      img.data.getD (4 * i + 2) 0 := by
    rw [show 4 * i + 2 = 4 * ((i / img.width) * img.width + i % img.width) + 2 by
        omega, hgrid 2 (by omega), htile]
    rfl
  rw [kCentroid]
  show Color.mk _ _ _ = Color.mk _ _ _
  rw [Color.mk.injEq]
  exact ⟨h0, h1, h2⟩

/-- Witness for C5 at a concrete two-pixel image. -/
theorem kCentroid_identity_witness :
    validImage imgTwoPixels ∧
      ∀ i, i < imgTwoPixels.width * imgTwoPixels.height →
        pixelColorAt
            (kCentroid imgTwoPixels imgTwoPixels.width imgTwoPixels.height
              2).data i =
          pixelColorAt imgTwoPixels.data i :=
  ⟨by decide, kCentroid_identity imgTwoPixels 2 (by decide)⟩

/-! ## Claim C3 -/

theorem foldl_min_le_init (l : List ℤ) : ∀ a : ℤ, l.foldl min a ≤ a := by
  induction l with
  | nil => intro a; simp
  | cons y t ih =>
    intro a
    rw [List.foldl_cons]
    calc t.foldl min (min a y) ≤ min a y := ih _
    _ ≤ a := min_le_left _ _

theorem foldl_min_le_mem (l : List ℤ) :
    ∀ (a x : ℤ), x ∈ l → l.foldl min a ≤ x := by
  induction l with
  | nil => intro a x hx; simp at hx
  | cons y t ih =>
    intro a x hx
    rw [List.foldl_cons]
    rcases List.mem_cons.mp hx with rfl | hx2
    · calc t.foldl min (min a x) ≤ min a x := foldl_min_le_init _ _
      _ ≤ x := min_le_right _ _
    · exact ih _ x hx2

theorem init_le_foldl_max (l : List ℤ) : ∀ a : ℤ, a ≤ l.foldl max a := by
  induction l with
  | nil => intro a; simp
  | cons y t ih =>
    intro a
    rw [List.foldl_cons]
    calc a ≤ max a y := le_max_left _ _
    _ ≤ t.foldl max (max a y) := ih _

theorem mem_le_foldl_max (l : List ℤ) :
    ∀ (a x : ℤ), x ∈ l → x ≤ l.foldl max a := by
  induction l with
  | nil => intro a x hx; simp at hx
  | cons y t ih =>
    intro a x hx
    rw [List.foldl_cons]
    rcases List.mem_cons.mp hx with rfl | hx2
    · calc x ≤ max a x := le_max_right _ _
      _ ≤ t.foldl max (max a x) := init_le_foldl_max _ _
    · exact ih _ x hx2

theorem maxRangeOf_nonneg (b : Bucket) : 0 ≤ maxRangeOf b := by
  rcases b with - | ⟨c, t⟩
  · rw [maxRangeOf, getColorRanges]
    simp
  · have hr : 0 ≤ (getColorRanges (c :: t)).1 := by
      rw [getColorRanges, if_neg (by simp)]
      have h1 := foldl_min_le_mem ((c :: t).map Color.r) 255 c.r (by simp)
      have h2 := mem_le_foldl_max ((c :: t).map Color.r) 0 c.r (by simp)
      simp only []
      omega
    have := le_max_left (max (getColorRanges (c :: t)).1
      (getColorRanges (c :: t)).2.1) (getColorRanges (c :: t)).2.2
    have := le_max_left (getColorRanges (c :: t)).1 (getColorRanges (c :: t)).2.1
    rw [maxRangeOf]
    omega

theorem maxRangeOf_single (b : Bucket) (hlen : b.length ≤ 1)
    (hr : ∀ c ∈ b, colorInRange c) : maxRangeOf b = 0 := by
  rcases b with - | ⟨c, - | ⟨c2, t⟩⟩
  · rw [maxRangeOf, getColorRanges]
    simp
  · obtain ⟨h1, h2, h3, h4, h5, h6⟩ := hr c (by simp)
    rw [maxRangeOf, getColorRanges, if_neg (by simp)]
    simp only [List.map_cons, List.map_nil, List.foldl_cons, List.foldl_nil]
    omega
  · simp at hlen

theorem maxRangeOf_pos_of_distinct (b : Bucket) (x y : Color) (hx : x ∈ b)
    (hy : y ∈ b) (hxy : x ≠ y) : 0 < maxRangeOf b := by
  have hbne : b ≠ [] := by
    intro h
    rw [h] at hx
    simp at hx
  have hch : ∀ f : Color → ℤ, f x ≠ f y →
      0 < (b.map f).foldl max 0 - (b.map f).foldl min 255 := by
    intro f hf
    have hx1 := mem_le_foldl_max (b.map f) 0 (f x) (List.mem_map_of_mem f hx)
    have hy1 := mem_le_foldl_max (b.map f) 0 (f y) (List.mem_map_of_mem f hy)
    have hx2 := foldl_min_le_mem (b.map f) 255 (f x) (List.mem_map_of_mem f hx)
    have hy2 := foldl_min_le_mem (b.map f) 255 (f y) (List.mem_map_of_mem f hy)
    omega
  have hdiff : x.r ≠ y.r ∨ x.g ≠ y.g ∨ x.b ≠ y.b := by
    by_contra hcon
    push_neg at hcon
    exact hxy (by cases x; cases y; simp_all)
  have hm1 : (getColorRanges b).1 ≤ maxRangeOf b := by
    rw [maxRangeOf]
    have := le_max_left (getColorRanges b).1 (getColorRanges b).2.1
    have := le_max_left (max (getColorRanges b).1 (getColorRanges b).2.1)
      (getColorRanges b).2.2
    omega
  have hm2 : (getColorRanges b).2.1 ≤ maxRangeOf b := by
    rw [maxRangeOf]
    have := le_max_right (getColorRanges b).1 (getColorRanges b).2.1
    have := le_max_left (max (getColorRanges b).1 (getColorRanges b).2.1)
      (getColorRanges b).2.2
    omega
  have hm3 : (getColorRanges b).2.2 ≤ maxRangeOf b := by
    rw [maxRangeOf]
    have := le_max_right (max (getColorRanges b).1 (getColorRanges b).2.1)
      (getColorRanges b).2.2
    omega
  rw [getColorRanges, if_neg hbne] at hm1 hm2 hm3
  simp only [] at hm1 hm2 hm3
  rcases hdiff with hf | hf | hf
  · have := hch Color.r hf
    omega
  · have := hch Color.g hf
    omega
  · have := hch Color.b hf
    omega

theorem mem_enumFrom_facts :
    ∀ (l : List Bucket) (n : ℕ) (p : ℕ × Bucket), p ∈ l.enumFrom n →
      n ≤ p.1 ∧ p.1 - n < l.length ∧ l.getD (p.1 - n) [] = p.2 := by
  intro l
  induction l with
  | nil => intro n p hp; simp at hp
  | cons x xs ih =>
    intro n p hp
    rw [show List.enumFrom n (x :: xs) = (n, x) :: List.enumFrom (n + 1) xs
      from rfl] at hp
    rcases List.mem_cons.mp hp with rfl | hp2
    · exact ⟨le_refl _, by simp, by simp⟩
    · obtain ⟨ha, hb, hc⟩ := ih (n + 1) p hp2
      refine ⟨by omega, by simp; omega, ?_⟩
      rw [show p.1 - n = (p.1 - (n + 1)) + 1 by omega]
      rw [List.getD_cons_succ]
      exact hc

theorem exists_enumFrom_of_mem :
    ∀ (l : List Bucket) (n : ℕ) (b : Bucket), b ∈ l →
      ∃ q ∈ l.enumFrom n, q.2 = b := by
  intro l
  induction l with
  | nil => intro n b hb; simp at hb
  | cons x xs ih =>
    intro n b hb
    rw [show List.enumFrom n (x :: xs) = (n, x) :: List.enumFrom (n + 1) xs
      from rfl]
    rcases List.mem_cons.mp hb with rfl | hb2
    · exact ⟨(n, b), by simp⟩
    · obtain ⟨q, hq, hq2⟩ := ih (n + 1) b hb2
      exact ⟨q, by simp [hq], hq2⟩

theorem selFold_spec :
    ∀ (l : List (ℕ × Bucket)) (m : ℤ) (st : Option (ℕ × Bucket × Fin 3)),
      (∀ p ∈ l, maxRangeOf p.2 ≤ (l.foldl
        (fun acc ib =>
          if maxRangeOf ib.2 > acc.1 then
            (maxRangeOf ib.2, some (ib.1, ib.2, largestChannelOf ib.2))
          else acc) (m, st)).1) ∧
      m ≤ (l.foldl
        (fun acc ib =>
          if maxRangeOf ib.2 > acc.1 then
            (maxRangeOf ib.2, some (ib.1, ib.2, largestChannelOf ib.2))
          else acc) (m, st)).1 ∧
      ((l.foldl
        (fun acc ib =>
          if maxRangeOf ib.2 > acc.1 then
            (maxRangeOf ib.2, some (ib.1, ib.2, largestChannelOf ib.2))
          else acc) (m, st)) = (m, st) ∨
        ∃ p ∈ l, (l.foldl
          (fun acc ib =>
            if maxRangeOf ib.2 > acc.1 then
              (maxRangeOf ib.2, some (ib.1, ib.2, largestChannelOf ib.2))
            else acc) (m, st)) =
          (maxRangeOf p.2, some (p.1, p.2, largestChannelOf p.2))) := by
  intro l
  induction l with
  | nil => intro m st; exact ⟨by simp, le_refl _, Or.inl rfl⟩
  | cons p t ih =>
    intro m st
    rw [List.foldl_cons]
    by_cases hgt : maxRangeOf p.2 > m
    · rw [if_pos hgt]
      obtain ⟨ha, hb, hc⟩ := ih (maxRangeOf p.2)
        (some (p.1, p.2, largestChannelOf p.2))
      refine ⟨?_, by omega, ?_⟩
      · intro q hq
        rcases List.mem_cons.mp hq with rfl | hq2
        · exact hb
        · exact ha q hq2
      · rcases hc with heq | ⟨q, hq, heq⟩
        · exact Or.inr ⟨p, by simp, heq⟩
        · exact Or.inr ⟨q, by simp [hq], heq⟩
    · rw [if_neg hgt]
      obtain ⟨ha, hb, hc⟩ := ih m st
      refine ⟨?_, hb, ?_⟩
      · intro q hq
        rcases List.mem_cons.mp hq with rfl | hq2
        · omega
        · exact ha q hq2
      · rcases hc with heq | ⟨q, hq, heq⟩
        · exact Or.inl heq
        · exact Or.inr ⟨q, by simp [hq], heq⟩

theorem selectBucket_spec (bs : List Bucket) (hne : bs ≠ []) :
    ∃ i bkt ch, selectBucket bs = some (i, bkt, ch) ∧ i < bs.length ∧
      bs.getD i [] = bkt ∧ ∀ b ∈ bs, maxRangeOf b ≤ maxRangeOf bkt := by
  obtain ⟨ha, hb, hc⟩ := selFold_spec bs.enum (-1)
    (none : Option (ℕ × Bucket × Fin 3))
  rcases hc with heq | ⟨p, hp, heq⟩
  · exfalso
    rcases bs with - | ⟨b0, rest⟩
    · exact hne rfl
    · have hmem : ((0, b0) : ℕ × Bucket) ∈ (b0 :: rest).enum := by
        rw [show (b0 :: rest).enum = (0, b0) :: List.enumFrom 1 rest from rfl]
        simp
      have h1 := ha _ hmem
      rw [heq] at h1
      have := maxRangeOf_nonneg b0
      simp only [] at h1
      omega
  · obtain ⟨h1, h2, h3⟩ := mem_enumFrom_facts bs 0 p hp
    refine ⟨p.1, p.2, largestChannelOf p.2, ?_, by omega, ?_, ?_⟩
    · rw [selectBucket, heq]
    · rw [show p.1 - 0 = p.1 from rfl] at h3
      exact h3
    · intro b hbmem
      obtain ⟨q, hq, hq2⟩ := exists_enumFrom_of_mem bs 0 b hbmem
      have := ha q hq
      rw [heq] at this
      simp only [] at this
      rw [← hq2]
      exact this

theorem bucket_decomp (bs : List Bucket) (i : ℕ) (h : i < bs.length) :
    bs = bs.take i ++ bs.getD i [] :: bs.drop (i + 1) := by
  conv_lhs => rw [← List.take_append_drop i bs]
  rw [List.drop_eq_getElem_cons h, List.getD_eq_getElem _ _ h]

theorem splitBucket_append (b : Bucket) (ch : Fin 3) :
    (splitBucket b ch).1 ++ (splitBucket b ch).2 =
      List.insertionSort (fun x y => chan x ch ≤ chan y ch) b := by
  rw [splitBucket]
  exact List.take_append_drop _ _

theorem splitBucket_perm (b : Bucket) (ch : Fin 3) :
    ((splitBucket b ch).1 ++ (splitBucket b ch).2).Perm b := by
  rw [splitBucket_append]
  exact List.perm_insertionSort _ _

theorem medianCutStep_none (bs : List Bucket) (hne : bs ≠ [])
    (h : medianCutStep bs = none) :
    ∃ i bkt ch, selectBucket bs = some (i, bkt, ch) ∧ bkt.length < 2 := by
  obtain ⟨i, bkt, ch, hsel, -, -, -⟩ := selectBucket_spec bs hne
  by_cases hlt : bkt.length < 2
  · exact ⟨i, bkt, ch, hsel, hlt⟩
  · rw [medianCutStep, hsel] at h
    simp only [medianCutStepAux, if_neg hlt] at h
    exact Option.noConfusion h

theorem medianCutStep_some (bs bs2 : List Bucket)
    (h : medianCutStep bs = some bs2) :
    bs2.length = bs.length + 1 ∧ bs2.flatten.Perm bs.flatten := by
  have hne : bs ≠ [] := by
    intro hnil
    subst hnil
    rw [show medianCutStep [] = none from rfl] at h
    exact Option.noConfusion h
  obtain ⟨i, bkt, ch, hsel, hilt, hgetD, -⟩ := selectBucket_spec bs hne
  rw [medianCutStep, hsel] at h
  by_cases hlt : bkt.length < 2
  · simp only [medianCutStepAux, if_pos hlt] at h
    exact Option.noConfusion h
  · simp only [medianCutStepAux, if_neg hlt, Option.some.injEq] at h
    subst h
    constructor
    · rw [List.length_append, List.length_take, List.length_cons,
        List.length_cons, List.length_drop]
      have := min_eq_left (le_of_lt hilt)
      omega
    · have hdec := bucket_decomp bs i hilt
      rw [hgetD] at hdec
      conv_rhs => rw [hdec]
      rw [List.flatten_append, List.flatten_append, List.flatten_cons,
        List.flatten_cons]
      refine List.Perm.append_left _ ?_
      rw [← List.append_assoc]
      exact List.Perm.append_right _ (splitBucket_perm bkt ch)

theorem flatten_distinct_le (bs : List Bucket)
    (h1 : ∀ b ∈ bs, ∀ x ∈ b, ∀ y ∈ b, x = y) :
    bs.flatten.toFinset.card ≤ bs.length := by
  induction bs with
  | nil => simp
  | cons b t ih =>
    rw [List.flatten_cons, List.toFinset_append, List.length_cons]
    have hb : b.toFinset.card ≤ 1 :=
      Finset.card_le_one.mpr fun a ha a2 ha2 =>
        h1 b (by simp) a (List.mem_toFinset.mp ha) a2 (List.mem_toFinset.mp ha2)
    have ht := ih fun b2 hb2 => h1 b2 (by simp [hb2])
    have := Finset.card_union_le b.toFinset t.flatten.toFinset
    omega

theorem exists_two_distinct (bs : List Bucket)
    (h : bs.length < bs.flatten.toFinset.card) :
    ∃ b ∈ bs, ∃ x ∈ b, ∃ y ∈ b, x ≠ y := by
  by_contra hcon
  push_neg at hcon
  have := flatten_distinct_le bs hcon
  omega

theorem getD_mem_of_lt (l : List Bucket) (n : ℕ) (h : n < l.length) :
    l.getD n [] ∈ l := by
  rw [List.getD_eq_getElem _ _ h]
  exact List.getElem_mem h

theorem medianCutLoop_spec (k : ℕ) (pixels : List Color) :
    ∀ (fuel : ℕ) (bs : List Bucket),
      bs ≠ [] → bs.length ≤ k → k ≤ bs.length + fuel →
      bs.flatten.Perm pixels →
      (medianCutLoop k fuel bs ≠ [] ∧
        (medianCutLoop k fuel bs).length ≤ k ∧
        (medianCutLoop k fuel bs).flatten.Perm pixels ∧
        ((medianCutLoop k fuel bs).length < k →
          ∃ i bkt ch, selectBucket (medianCutLoop k fuel bs) =
            some (i, bkt, ch) ∧ bkt.length < 2)) := by
  intro fuel
  induction fuel with
  | zero =>
    intro bs h1 h2 h3 h4
    rw [medianCutLoop]
    exact ⟨h1, h2, h4, fun hlt => absurd hlt (by omega)⟩
  | succ n ih =>
    intro bs h1 h2 h3 h4
    rw [medianCutLoop]
    split
    · rename_i hcond
      rcases hstep : medianCutStep bs with - | bs2
      · obtain ⟨i, bkt, ch, hsel, hsmall⟩ := medianCutStep_none bs h1 hstep
        exact ⟨h1, h2, h4, fun _ => ⟨i, bkt, ch, hsel, hsmall⟩⟩
      · obtain ⟨hlen2, hperm2⟩ := medianCutStep_some bs bs2 hstep
        exact ih bs2 (by rw [← List.length_pos]; omega) (by omega) (by omega)
          (hperm2.trans h4)
    · rename_i hcond
      exact ⟨h1, h2, h4, fun hlt => absurd hlt (by omega)⟩

/-- Claim C3: for `k ≥ 1` and in-range colors, `medianCut` returns at
most `k` palette entries, exactly `k` whenever the input has at least `k`
distinct colors, and the palette is short of `k` only when the bucket the
selection scan chose for splitting has fewer than two members. -/
theorem medianCut_palette_size (pixels : List Color) (k : ℕ) (hk : 1 ≤ k)
    (hrange : ∀ c ∈ pixels, colorInRange c) :
    (medianCut pixels k).length ≤ k ∧
    (k ≤ pixels.toFinset.card → (medianCut pixels k).length = k) ∧
    ((medianCut pixels k).length < k →
      ∃ i bkt ch, selectBucket (medianCutBuckets pixels k) =
        some (i, bkt, ch) ∧ bkt.length < 2) := by
  obtain ⟨hne, hlen, hperm, hbreak⟩ :=
    medianCutLoop_spec k pixels k [pixels] (by simp) (by simpa using hk)
      (by simp) (by simp)
  have hmc : (medianCut pixels k).length = (medianCutBuckets pixels k).length := by
    rw [medianCut, List.length_map]
  have hbk : medianCutBuckets pixels k = medianCutLoop k k [pixels] := rfl
  refine ⟨by rw [hmc, hbk]; exact hlen, ?_, ?_⟩
  · intro hdist
    by_contra hneq
    have hlt : (medianCutBuckets pixels k).length < k := by
      rw [hmc] at hneq
      rw [hbk]
      rw [hbk] at hneq
      omega
    obtain ⟨i, bkt, ch, hsel, hsmall⟩ := hbreak (by rw [← hbk]; exact hlt)
    obtain ⟨i2, bkt2, ch2, hsel2, hi2, hgetD2, hmax2⟩ :=
      selectBucket_spec (medianCutLoop k k [pixels]) hne
    rw [hsel] at hsel2
    have htr : bkt = bkt2 := by
      have h5 := Option.some_inj.mp hsel2
      simp only [Prod.mk.injEq] at h5
      exact h5.2.1
    subst htr
    have hfin : (medianCutLoop k k [pixels]).flatten.toFinset =
        pixels.toFinset :=
      List.toFinset_eq_of_perm _ _ hperm
    have hcard : (medianCutLoop k k [pixels]).length <
        (medianCutLoop k k [pixels]).flatten.toFinset.card := by
      rw [hfin]
      rw [hbk] at hlt
      omega
    obtain ⟨b, hbmem, x, hx, y, hy, hxy⟩ :=
      exists_two_distinct (medianCutLoop k k [pixels]) hcard
    have hbpos := maxRangeOf_pos_of_distinct b x y hx hy hxy
    have hble := hmax2 b hbmem
    have hbktmem : bkt ∈ medianCutLoop k k [pixels] := by
      rw [← hgetD2]
      exact getD_mem_of_lt _ _ hi2
    have hbktrange : ∀ c ∈ bkt, colorInRange c := by
      intro c hc
      refine hrange c ?_
      refine (hperm.mem_iff).mp ?_
      exact List.mem_flatten.mpr ⟨bkt, hbktmem, hc⟩
    have hzero : maxRangeOf bkt = 0 :=
      maxRangeOf_single bkt (by omega) hbktrange
    omega
  · intro hlt
    rw [hmc, hbk] at hlt
    exact hbreak hlt

/-- Witness for C3 at a concrete pixel list and k = 2. -/
theorem medianCut_palette_size_witness :
    1 ≤ 2 ∧
      (∀ c ∈ ([⟨0, 0, 0⟩, ⟨5, 0, 0⟩, ⟨9, 9, 9⟩] : List Color), colorInRange c) ∧
      ((medianCut [⟨0, 0, 0⟩, ⟨5, 0, 0⟩, ⟨9, 9, 9⟩] 2).length ≤ 2 ∧
        (2 ≤ ([⟨0, 0, 0⟩, ⟨5, 0, 0⟩, ⟨9, 9, 9⟩] : List Color).toFinset.card →
          (medianCut [⟨0, 0, 0⟩, ⟨5, 0, 0⟩, ⟨9, 9, 9⟩] 2).length = 2) ∧
        ((medianCut [⟨0, 0, 0⟩, ⟨5, 0, 0⟩, ⟨9, 9, 9⟩] 2).length < 2 →
          ∃ i bkt ch,
            selectBucket (medianCutBuckets [⟨0, 0, 0⟩, ⟨5, 0, 0⟩, ⟨9, 9, 9⟩] 2) =
              some (i, bkt, ch) ∧ bkt.length < 2)) :=
  ⟨by decide, by decide,
    medianCut_palette_size [⟨0, 0, 0⟩, ⟨5, 0, 0⟩, ⟨9, 9, 9⟩] 2 (by decide)
      (by decide)⟩

/-! ## Claim C8 -/

theorem snd_mem_of_mem_enumFrom {α : Type} :
    ∀ (l : List α) (n : ℕ) (p : ℕ × α), p ∈ l.enumFrom n → p.2 ∈ l := by
  intro l
  induction l with
  | nil => intro n p hp; simp at hp
  | cons x xs ih =>
    intro n p hp
    rw [show List.enumFrom n (x :: xs) = (n, x) :: List.enumFrom (n + 1) xs
      from rfl] at hp
    rcases List.mem_cons.mp hp with rfl | hp2
    · simp
    · exact List.mem_cons_of_mem _ (ih (n + 1) p hp2)

theorem averageColor_single (c : Color) : averageColor [c] = qColor c := by
  rw [averageColor, qColor]
  simp

theorem clusterOf_single (c : Color) (cents : List QColor) (i : ℕ) :
    clusterOf [c] cents i = [] ∨ clusterOf [c] cents i = [c] := by
  rw [clusterOf]
  by_cases hp : (assignIdx c cents == i) = true
  · right
    simp [List.filter, hp]
  · left
    have hp2 : (assignIdx c cents == i) = false := by
      rw [← Bool.not_eq_true]
      exact hp
    simp [List.filter, hp2]

theorem kmeansUpdate_single_replicate (c : Color) (k : ℕ) :
    kmeansUpdate [c] (List.replicate k (qColor c)) =
      List.replicate k (qColor c) := by
  rw [List.eq_replicate]
  constructor
  · rw [kmeansUpdate, List.length_map, List.enum_length, List.length_replicate]
  · intro x hx
    rw [kmeansUpdate] at hx
    obtain ⟨ict, hict, rfl⟩ := List.mem_map.mp hx
    have hsnd : ict.2 = qColor c :=
      List.eq_of_mem_replicate (snd_mem_of_mem_enumFrom _ 0 ict hict)
    rcases clusterOf_single c (List.replicate k (qColor c)) ict.1 with hcl | hcl
    · rw [if_pos hcl]
      exact hsnd
    · rw [hcl]
      rw [if_neg (by simp)]
      exact averageColor_single c

theorem kmeansIterate_fixed (colors : List Color) (cents : List QColor)
    (h : kmeansUpdate colors cents = cents) :
    ∀ n, kmeansIterate colors n cents = cents := by
  intro n
  induction n with
  | zero => rfl
  | succ m ih => rw [kmeansIterate, h, ih]

theorem largestClusterIdx_lt (colors : List Color) (cents : List QColor)
    (k : ℕ) (hk : 1 ≤ k) : largestClusterIdx colors cents k < k := by
  rw [largestClusterIdx]
  have hgen : ∀ (l : List ℕ) (st : ℕ × ℕ), st.1 < k → (∀ i ∈ l, i < k) →
      (l.foldl
        (fun acc i =>
          if (clusterOf colors cents i).length > acc.2 then
            (i, (clusterOf colors cents i).length)
          else acc) st).1 < k := by
    intro l
    induction l with
    | nil => intro st hst _; exact hst
    | cons j t ih =>
      intro st hst hl
      rw [List.foldl_cons]
      by_cases hc : (clusterOf colors cents j).length > st.2
      · rw [if_pos hc]
        exact ih _ (hl j (by simp)) fun i hi => hl i (by simp [hi])
      · rw [if_neg hc]
        exact ih _ hst fun i hi => hl i (by simp [hi])
  exact hgen (List.range k) (0, 0) (by omega) fun i hi => List.mem_range.mp hi

theorem getD_replicate_qcolor (k j : ℕ) (q : QColor) (h : j < k) :
    (List.replicate k q).getD j ⟨0, 0, 0⟩ = q := by
  rw [List.getD_eq_getElem _ _ (by simpa using h)]
  simp

theorem floor_one_half : ⌊(1 : ℚ) / 2⌋ = 0 := by
  rw [Int.floor_eq_iff] <;> norm_num

theorem jsRound_intCast (z : ℤ) : jsRound ((z : ℚ)) = z := by
  rw [jsRound, ratFloor_eq_floor, show (z : ℚ) + 1 / 2 = (z : ℚ) + 1 / 2 from rfl,
    Int.floor_int_add, floor_one_half, add_zero]

theorem roundQColor_qColor (c : Color) : roundQColor (qColor c) = c := by
  rw [roundQColor, qColor]
  simp only [jsRound_intCast]

theorem takeWhile_all {p : ℕ → Bool} :
    ∀ l : List ℕ, (∀ x ∈ l, p x = true) → l.takeWhile p = l := by
  intro l
  induction l with
  | nil => intro _; rfl
  | cons x t ih =>
    intro h
    rw [List.takeWhile_cons, h x (by simp), if_pos rfl,
      ih fun y hy => h y (by simp [hy])]

theorem seed_pos_lt (len k : ℕ) (hlen : 1 ≤ len) (hk : 1 ≤ k) :
    ∀ i, i < k → i * (len / k) < len := by
  intro i hi
  by_cases hstep : len / k = 0
  · rw [hstep, Nat.mul_zero]
    omega
  · obtain ⟨s, hs⟩ : ∃ s, len / k = s := ⟨len / k, rfl⟩
    rw [hs] at hstep ⊢
    have h3 : k * s ≤ len := by
      rw [← hs, Nat.mul_comm]
      exact Nat.div_mul_le_self len k
    have h1 : (i + 1) * s ≤ k * s := Nat.mul_le_mul_right _ (by omega)
    have h2 : (i + 1) * s = i * s + s := by rw [Nat.succ_mul]
    omega

/-- Claim C8: the per-tile clustering of the downscaler computes exactly
the procedure worded in the specification — seed `k` centroids at evenly
spaced positions, run exactly `maxIterations = 5` assign/update rounds
(assignment ties to the lowest centroid index, an empty cluster keeps its
centroid), then one final assignment pass, and emit the rounded centroid
of the most populated cluster (ties to the lowest index). -/
theorem findDominantColor_eq_spec (colors : List Color) (k : ℕ)
    (hne : colors ≠ []) (hk : 1 ≤ k) :
    findDominantColor colors k = specDominantColor colors k := by
  by_cases hlen1 : colors.length = 1
  · obtain ⟨c, rfl⟩ := List.length_eq_one.mp hlen1
    have hlhs : findDominantColor [c] k = c := by
      rw [findDominantColor]
      simp
    rw [hlhs]
    simp only [specDominantColor]
    have hc0 : ((List.range k).map fun i =>
        qColor (([c] : List Color).getD (i * (([c] : List Color).length / k))
          ⟨0, 0, 0⟩)) = List.replicate k (qColor c) := by
      rw [List.eq_replicate]
      refine ⟨by simp, ?_⟩
      intro b hb
      obtain ⟨i, hi, rfl⟩ := List.mem_map.mp hb
      have hz : i * (([c] : List Color).length / k) = 0 := by
        simp only [List.length_cons, List.length_nil]
        rcases Nat.lt_or_ge 1 k with hk2 | hk2
        · rw [Nat.div_eq_of_lt hk2, Nat.mul_zero]
        · have hke : k = 1 := by omega
          subst hke
          have hie : i = 0 := by simpa using List.mem_range.mp hi
          subst hie
          rfl
      rw [hz]
      rfl
    rw [hc0,
      kmeansIterate_fixed [c] _ (kmeansUpdate_single_replicate c k)
        maxIterations,
      getD_replicate_qcolor k _ (qColor c) (largestClusterIdx_lt [c] _ k hk),
      roundQColor_qColor]
  · have htw : ((List.range k).takeWhile fun i =>
        i * (colors.length / k) < colors.length) = List.range k := by
      refine takeWhile_all _ ?_
      intro x hx
      exact decide_eq_true
        (seed_pos_lt colors.length k (by
            have := List.length_pos.mpr hne
            omega) hk x (List.mem_range.mp hx))
    simp only [findDominantColor, specDominantColor, if_neg hne, if_neg hlen1]
    rw [htw]

/-- Witness for C8 at a concrete color list and k = 2. -/
theorem findDominantColor_eq_spec_witness :
    ([⟨0, 0, 0⟩, ⟨0, 0, 0⟩, ⟨9, 9, 9⟩] : List Color) ≠ [] ∧ 1 ≤ 2 ∧
      findDominantColor [⟨0, 0, 0⟩, ⟨0, 0, 0⟩, ⟨9, 9, 9⟩] 2 =
        specDominantColor [⟨0, 0, 0⟩, ⟨0, 0, 0⟩, ⟨9, 9, 9⟩] 2 :=
  ⟨by decide, by decide,
    findDominantColor_eq_spec [⟨0, 0, 0⟩, ⟨0, 0, 0⟩, ⟨9, 9, 9⟩] 2 (by decide)
      (by decide)⟩
